import Mathlib

/-!
Verification of the floor-plan ingestion logic of the
fire-evacuation-simulator repository (floorparse.py).

Python strings are modelled as lists of characters (Str); the helpers
pySplit, pyStrip and normNewlines mirror str.split(sep) with a one-char
separator, str.strip() and str.replace of the source. Python dicts that
map tuple keys to cell records are modelled by the Graph structure: an
insertion-ordered key list (Python dicts preserve insertion order) plus a
total content function, with the defaultdict default cell for keys not
yet materialized. IndexError is modelled by Option.
-/

namespace FloorParse

/-- Str models a Python string as its list of characters. -/
abbrev Str := List Char

/-- Whitespace characters stripped by Python str.strip(). -/
def pySpace (c : Char) : Bool :=
  c == ' ' || c == '\t' || c == '\n' || c == '\r' || c == '\x0b' || c == '\x0c'

/-- Python s.strip(): drop whitespace at both ends. -/
def pyStrip (s : Str) : Str :=
  ((s.dropWhile pySpace).reverse.dropWhile pySpace).reverse

/-- Python s.split(sep) for a one-character separator. -/
def pySplit (sep : Char) : Str → List Str
  | [] => [[]]
  | c :: rest =>
    if c = sep then [] :: pySplit sep rest
    else
      match pySplit sep rest with
      | [] => [[c]]
      | r :: rs => (c :: r) :: rs

/-- Python floor.replace of CRLF by LF (left-to-right, non-overlapping). -/
def normNewlines : Str → Str
  | '\r' :: '\n' :: rest => '\n' :: normNewlines rest
  | c :: rest => c :: normNewlines rest
  | [] => []

/-- Token test for the portal pattern of line 26 of floorparse.py:
one of Z, E, U, P followed by one or more digits, nothing else. -/
def isPortalTok (s : Str) : Bool :=
  match s with
  | c :: rest =>
    (c == 'Z' || c == 'E' || c == 'U' || c == 'P') && !rest.isEmpty &&
      rest.all (fun d => d.isDigit)
  | [] => false

/-- Drop trailing whitespace only. -/
def dropTrailingSpace (s : Str) : Str := (s.reverse.dropWhile pySpace).reverse

/-- Line test for the layer-marker pattern of line 48 of floorparse.py:
three equal signs, optional whitespace, the word LAYER, an arbitrary
name, and a closing run of three equal signs followed only by
whitespace. The multiline regex re.split is modelled line by line; this
is extensionally equivalent for the parse because blank rows are dropped
by the row loop anyway. -/
def isMarkerLine (line : Str) : Bool :=
  match line with
  | '=' :: '=' :: '=' :: rest =>
    match rest.dropWhile pySpace with
    | 'L' :: 'A' :: 'Y' :: 'E' :: 'R' :: r2 =>
      let r3 := dropTrailingSpace r2
      decide (3 ≤ r3.length) && (r3.drop (r3.length - 3) == ['=', '=', '='])
    | _ => false
  | _ => false

/-- Lines of the normalized input text. -/
def textLines (floor : Str) : List Str := pySplit '\n' (normNewlines floor)

/-- Multi-layer mode is active when the blob contains a layer marker. -/
def multilayer (floor : Str) : Bool := (textLines floor).any isMarkerLine

/-- Blocks of lines following each layer marker, in order. The text
before the first marker (m.head in the source) is dropped. -/
def layerBlocks (ls : List Str) : List (List Str) :=
  (ls.splitOnP isMarkerLine).tail

/-- Decoding of one cell group: strip, skip if blank, split into
comma-separated tokens, strip and drop empties, then separate portal
tokens from the remaining main tokens. -/
def parseCell (sq : Str) : Option (List Str × List Str) :=
  let tok := pyStrip sq
  if tok = [] then none
  else
    let parts := ((pySplit ',' tok).map pyStrip).filter (fun p => !p.isEmpty)
    some (parts.filter isPortalTok, parts.filter (fun p => !isPortalTok p))

/-- Rows of one layer block. Blank rows and rows with no kept cells are
dropped, mirroring the two skip branches of _parse_single_layer. Each
kept cell carries its extracted portal tokens and its main tokens. -/
def layerRows (blockLines : List Str) : List (List (List Str × List Str)) :=
  blockLines.filterMap (fun row =>
    if pyStrip row = [] then none
    else
      let cells := (pySplit ';' row).filterMap parseCell
      if cells.isEmpty then none else some cells)

/-- Attribute set of a cell: set(parts) of the source. -/
abbrev Attrs := Finset Str

/-- Layer grid: rows of attribute sets. -/
abbrev Grid := List (List Attrs)

/-- Portal occurrence location (z, row, col). -/
abbrev Loc := Nat × Nat × Nat

/-- Attribute-set grid of a parsed layer. -/
def gridOfRows (rows : List (List (List Str × List Str))) : Grid :=
  rows.map (fun cells => cells.map (fun c => c.2.toFinset))

/-- Portal table entries contributed by one layer, in recording order:
location (z, len(grid), len(rowattrs)) at the moment of extraction, which
is the cell's final (layer, row, col). -/
def portalsOfRows (z : Nat) (rows : List (List (List Str × List Str))) :
    List (Str × Loc) :=
  rows.enum.flatMap (fun ic =>
    ic.2.enum.flatMap (fun jc =>
      jc.2.1.map (fun pid => (pid, (z, ic.1, jc.1)))))

/-- Per-layer grids of the input (the graphs list of parse). -/
def parsedGrids (floor : Str) : List Grid :=
  if multilayer floor then
    (layerBlocks (textLines floor)).map (fun b => gridOfRows (layerRows b))
  else
    [gridOfRows (layerRows (textLines floor))]

/-- All portal occurrences of the input in recording order (all_portals
flattened: the defaultdict list of a pid is the sublist with that pid). -/
def allPortals (floor : Str) : List (Str × Loc) :=
  if multilayer floor then
    (layerBlocks (textLines floor)).enum.flatMap
      (fun zb => portalsOfRows zb.1 (layerRows zb.2))
  else
    portalsOfRows 0 (layerRows (textLines floor))

/-- Graph keys: 2-component (row, col) tuples in single-layer mode,
3-component (layer, row, col) tuples otherwise. Python uses tuples of
both arities in one dict; the constructors keep them distinct. -/
inductive Key where
  | k2 (i j : Nat)
  | k3 (z i j : Nat)
deriving DecidableEq, Repr

/-- Cell record. A flag of value none models the dict key being absent;
some v models the Python int value v. nbrs models the 'nbrs' set, which
the defaultdict default factory puts into every materialized entry. -/
structure Cell where
  W : Option Nat := none
  S : Option Nat := none
  B : Option Nat := none
  F : Option Nat := none
  N : Option Nat := none
  P : Option Nat := none
  SD : Option Nat := none
  SU : Option Nat := none
  TD : Option Nat := none
  TU : Option Nat := none
  room : Option Str := none
  room_name : Option Str := none
  nbrs : Finset Key := ∅
deriving DecidableEq

/-- Default cell of the defaultdict: only the empty 'nbrs' set. -/
def emptyCell : Cell := {}

/-- Graph: insertion-ordered key list plus total content function. -/
structure Graph where
  keys : List Key
  cells : Key → Cell

/-- Initial empty defaultdict. -/
def Graph.empty : Graph := ⟨[], fun _ => emptyCell⟩

/-- Write a cell under a key, materializing the key if it is new. -/
def Graph.set (g : Graph) (k : Key) (c : Cell) : Graph :=
  { keys := if k ∈ g.keys then g.keys else g.keys ++ [k],
    cells := fun q => if q = k then c else g.cells q }

/-- Plain-dict lookup (raises KeyError, hence Option, when absent). -/
def Graph.find? (g : Graph) (k : Key) : Option Cell :=
  if k ∈ g.keys then some (g.cells k) else none

/-- Flag value int(att in attrs). -/
def flagOf (a : Str) (attrs : Attrs) : Option Nat :=
  some (if a ∈ attrs then 1 else 0)

/-- Key of a grid cell: (z,i,j) if multilayer else (i,j). -/
def gridKey (ml : Bool) (z i j : Nat) : Key :=
  if ml then .k3 z i j else .k2 i j

/-- Neighbor offsets (-1,0),(1,0),(0,-1),(0,1). -/
def dirOffsets : List (Int × Int) := [(-1, 0), (1, 0), (0, -1), (0, 1)]

/-- In-bounds 4-directional neighbor keys of (i,j) in an R-by-C layer:
i2, j2 = i + di, j + dj kept when 0 <= i2 < R and 0 <= j2 < C. -/
def inBoundsNbrKeys (ml : Bool) (z R C i j : Nat) : List Key :=
  dirOffsets.filterMap (fun d =>
    if 0 ≤ (i : Int) + d.1 ∧ (i : Int) + d.1 < (R : Int) ∧
       0 ≤ (j : Int) + d.2 ∧ (j : Int) + d.2 < (C : Int) then
      some (gridKey ml z ((i : Int) + d.1).toNat ((j : Int) + d.2).toNat)
    else none)

/-- Cell value written by the assembly loop body: the six standard
flags from attribute-set membership, and the in-bounds 4-directional
neighbor keys added to the cell's current neighbor set. -/
def assembledCell (ml : Bool) (z R C i j : Nat) (attrs : Attrs) (c0 : Cell) : Cell :=
  { c0 with
    W := flagOf ['W'] attrs, S := flagOf ['S'] attrs, B := flagOf ['B'] attrs,
    F := flagOf ['F'] attrs, N := flagOf ['N'] attrs, P := flagOf ['P'] attrs,
    nbrs := c0.nbrs ∪ (inBoundsNbrKeys ml z R C i j).toFinset }

/-- Loop body of the graph assembly at one grid cell. -/
def stepCell (ml : Bool) (z R C i j : Nat) (attrs : Attrs) (g : Graph) : Graph :=
  g.set (gridKey ml z i j)
    (assembledCell ml z R C i j attrs (g.cells (gridKey ml z i j)))

/-- Row-major cell indices of the nested loops for i in range(R), for j
in range(C). -/
def prodList (R C : Nat) : List (Nat × Nat) :=
  (List.range R).flatMap (fun i => (List.range C).map (fun j => (i, j)))

/-- Loop body of the assembly at index p, including the possibly
failing access grid[i][j] (IndexError on a row shorter than the first
row of the layer). -/
def layerStep (ml : Bool) (z R C : Nat) (grid : Grid) (g : Graph) (p : Nat × Nat) :
    Option Graph :=
  match grid[p.1]?.bind (fun row => row[p.2]?) with
  | none => none
  | some attrs => some (stepCell ml z R C p.1 p.2 attrs g)

/-- Assembly of one layer. Empty grids are skipped; R and C come from
len(grid) and len(grid[0]). -/
def assembleLayer (ml : Bool) (z : Nat) (grid : Grid) (g : Graph) : Option Graph :=
  if grid = [] then some g
  else (prodList grid.length grid.headI.length).foldlM
    (layerStep ml z grid.length grid.headI.length grid) g

/-- Assembly of all layers in order, starting from the empty dict. -/
def assembleAll (ml : Bool) (grids : List Grid) : Option Graph :=
  grids.enum.foldlM (fun g zg => assembleLayer ml zg.1 zg.2 g) Graph.empty

/-- Key of a portal location: always a 3-component tuple. -/
def locKey : Loc → Key := fun l => .k3 l.1 l.2.1 l.2.2

/-- Distinct portal ids in first-occurrence order (dict iteration). -/
def pidsOf (portals : List (Str × Loc)) : List Str :=
  (portals.map Prod.fst).dedup

/-- Occurrence list of one portal id, in recording order. -/
def locsOf (portals : List (Str × Loc)) (pid : Str) : List Loc :=
  (portals.filter (fun x => x.1 = pid)).map Prod.snd

/-- Ordered pairs produced by the portal-connection loops of lines 90-96:
for each pid, every ordered pair of distinct recorded locations. -/
def meshPairs (portals : List (Str × Loc)) : List (Loc × Loc) :=
  (pidsOf portals).flatMap (fun pid =>
    (locsOf portals pid).flatMap (fun a =>
      (locsOf portals pid).filterMap (fun b =>
        if a = b then none else some (a, b))))

/-- One edge addition graph[a]['nbrs'].add(b): materializes a only. -/
def addNbr (g : Graph) (k t : Key) : Graph :=
  g.set k { g.cells k with nbrs := insert t (g.cells k).nbrs }

/-- Portal-connection pass over the assembled graph. -/
def applyMesh (g : Graph) (portals : List (Str × Loc)) : Graph :=
  (meshPairs portals).foldl (fun g ab => addNbr g (locKey ab.1) (locKey ab.2)) g

/-- FloorParser.parse of floorparse.py. -/
def parse (floor : Str) : Option Graph :=
  (assembleAll (multilayer floor) (parsedGrids floor)).map
    (fun g => applyMesh g (allPortals floor))

/-- Comma join of attribute names, as the Python str.join idiom. -/
def joinComma : List Str → Str
  | [] => []
  | [s] => s
  | s :: rest => s ++ ',' :: joinComma rest

/-- Attribute letters read by tostr, in its BNSFWP order, paired with
the cell's stored flag values. -/
def tostrFlags (c : Cell) : List (Char × Option Nat) :=
  [('B', c.B), ('N', c.N), ('S', c.S), ('F', c.F), ('W', c.W), ('P', c.P)]

/-- Attribute string of the 2-tuple branch of tostr: sq[a] raises
KeyError when a flag is absent (none), truthiness keeps nonzero ones. -/
def attStr2 (c : Cell) : Option Str :=
  ((tostrFlags c).mapM (fun fv : Char × Option Nat => fv.2.map (fun v => (fv.1, v)))).map
    (fun l => joinComma ((l.filter (fun fv => fv.2 ≠ 0)).map (fun fv => [fv.1])))

/-- Attribute string of the 3-tuple branch of tostr: sq.get(a) treats
an absent flag as falsy. -/
def attStr3 (c : Cell) : Str :=
  joinComma (((tostrFlags c).filter (fun fv => fv.2.getD 0 ≠ 0)).map (fun fv => [fv.1]))

/-- Python format '{:>4}': right-justify in a field of width 4. -/
def rjust4 (s : Str) : Str := List.replicate (4 - s.length) ' ' ++ s

/-- First tuple component loc[0] of a key. -/
def keyFst : Key → Nat
  | .k2 i _ => i
  | .k3 z _ _ => z

/-- Second tuple component loc[1] of a key. -/
def keySnd : Key → Nat
  | .k2 _ j => j
  | .k3 _ i _ => i

/-- Test for a 3-component key. -/
def isK3 : Key → Bool
  | .k3 _ _ _ => true
  | _ => false

/-- FloorParser.tostr. The branch on the first key's arity follows
next(iter(graph)); the empty dict raises StopIteration (none). In the
3-tuple branch the loop unpacks every key as (z,i,j), raising on a
2-tuple key of a mixed graph (none). -/
def tostr (graph : Graph) : Option Str :=
  match graph.keys with
  | [] => none
  | k :: _ =>
    if isK3 k then
      if !graph.keys.all isK3 then none
      else
        let r := graph.keys.foldl (fun r q => match q with
          | .k3 0 i _ => max r i
          | _ => r) 0 + 1
        let c := graph.keys.foldl (fun c q => match q with
          | .k3 0 _ j => max c j
          | _ => c) 0 + 1
        ((List.range r).mapM (fun i =>
          ((List.range c).mapM (fun j =>
            (graph.find? (.k3 0 i j)).map attStr3)).map
            (fun atts => (atts.map rjust4).flatten ++ ['\n']))).map List.flatten
    else
      let r := (graph.keys.map keyFst).foldl max 0 + 1
      let c := (graph.keys.map keySnd).foldl max 0 + 1
      ((List.range r).mapM (fun i =>
        ((List.range c).mapM (fun j =>
          (graph.find? (.k2 i j)).bind attStr2)).map
          (fun atts => (atts.map rjust4).flatten ++ ['\n']))).map List.flatten

/-- RGB triple. -/
abbrev Rgb := Nat × Nat × Nat

/-- Squared Euclidean RGB distance computed by nearest_token. -/
def sqDist (p q : Rgb) : Int :=
  ((p.1 : Int) - q.1) ^ 2 + ((p.2.1 : Int) - q.2.1) ^ 2 + ((p.2.2 : Int) - q.2.2) ^ 2

/-- Ordered palette: a Python dict in insertion order. -/
abbrev Palette := List (Str × Rgb)

/-- DEFAULT_PAL of parse_image and parse_image_folder, in source order. -/
def DEFAULT_PAL : Palette :=
  [(['W'], (0, 0, 0)), (['N'], (191, 227, 240)), (['S'], (92, 184, 92)),
   (['B'], (33, 59, 143)), (['F'], (217, 83, 79)), (['P'], (91, 192, 222)),
   (['S', 'D'], (127, 59, 8)), (['S', 'U'], (179, 88, 6)),
   (['T', 'D'], (1, 102, 94)), (['T', 'U'], (53, 151, 143))]

/-- dict(DEFAULT_PAL) followed by update(palette): existing tokens keep
their position and take the override color, new tokens are appended. -/
def palUpdate (base over : Palette) : Palette :=
  (base.map (fun tc => (tc.1, ((over.find? (fun o => o.1 = tc.1)).map Prod.snd).getD tc.2)))
    ++ over.filter (fun o => base.all (fun b => b.1 ≠ o.1))

/-- nearest_token of floorparse.py (textually identical in parse_image
and parse_image_folder): linear scan over the palette with best
initialized to token N and best distance 10^12; only a strictly smaller
distance replaces the best, so the first palette entry attaining the
minimum is kept. -/
def nearest_token (pal : Palette) (rgb : Rgb) : Str :=
  (pal.foldl (fun best tc =>
    if sqDist rgb tc.2 < best.2 then (tc.1, sqDist rgb tc.2) else best)
    (['N'], (10 ^ 12 : Int))).1

/-- Pixel accessor: px x y is the RGB value at column x, row y. -/
abbrev Px := Nat → Nat → Rgb

/-- block_avg: integer-mean color (Python floor division) of the
cell_px-by-cell_px pixel block of tile (i, j). -/
def block_avg (cellPx : Nat) (px : Px) (i j : Nat) : Rgb :=
  let pts := (prodList cellPx cellPx).map
    (fun d => px (j * cellPx + d.2) (i * cellPx + d.1))
  let cnt := pts.length
  ((pts.map (fun p => p.1)).sum / cnt, (pts.map (fun p => p.2.1)).sum / cnt,
   (pts.map (fun p => p.2.2)).sum / cnt)

/-- Effective cell size in pixels: the map_meta value clamped to at
least 1 when present, then the gcd-of-dimensions fallback (gcd or 1)
when it does not divide both dimensions. -/
def effCellPx (W H : Nat) (metaCellPx : Option Int) : Nat :=
  let cp := match metaCellPx with
    | some v => (max 1 v).toNat
    | none => 1
  if W % cp ≠ 0 ∨ H % cp ≠ 0 then
    let g := Nat.gcd W H
    if g = 0 then 1 else g
  else cp

/-- Flag writes of the image parsers: int(att == tok) for the six
standard and four stairs attributes. -/
def imgCellFlags (tok : Str) (c0 : Cell) : Cell :=
  let eqFlag : Str → Option Nat := fun a => some (if a = tok then 1 else 0)
  { c0 with
    W := eqFlag ['W'], S := eqFlag ['S'], B := eqFlag ['B'],
    F := eqFlag ['F'], N := eqFlag ['N'], P := eqFlag ['P'],
    SD := eqFlag ['S', 'D'], SU := eqFlag ['S', 'U'],
    TD := eqFlag ['T', 'D'], TU := eqFlag ['T', 'U'] }

/-- First loop of parse_image: classify every tile and write its ten
flags. -/
def imgFlagLoop (cp R C : Nat) (px : Px) (pal : Palette) : Graph :=
  (prodList R C).foldl (fun g p =>
    g.set (.k2 p.1 p.2)
      (imgCellFlags (nearest_token pal (block_avg cp px p.1 p.2))
        (g.cells (.k2 p.1 p.2)))) Graph.empty

/-- Second loop of parse_image: 4-connected neighbors. -/
def imgNbrLoop (R C : Nat) (g1 : Graph) : Graph :=
  (prodList R C).foldl (fun g p =>
    (inBoundsNbrKeys false 0 R C p.1 p.2).foldl
      (fun g2 t => addNbr g2 (.k2 p.1 p.2) t) g) g1

/-- parse_image of floorparse.py, taking the decoded pixel data, image
size, optional embedded cell size and merged palette as inputs (PIL
decoding itself is outside the model). The first loop writes the flags
of every tile, the second adds the 4-directional neighbors. -/
def parse_image (W H : Nat) (px : Px) (metaCellPx : Option Int) (pal : Palette) :
    Graph :=
  imgNbrLoop (H / effCellPx W H metaCellPx) (W / effCellPx W H metaCellPx)
    (imgFlagLoop (effCellPx W H metaCellPx) (H / effCellPx W H metaCellPx)
      (W / effCellPx W H metaCellPx) px pal)

/-- Token grid of one floor. -/
abbrev TokGrid := List (List Str)

/-- Per-floor token grid of parse_image_folder's first pass. -/
def floorGrid (W H : Nat) (px : Px) (metaCellPx : Option Int) (pal : Palette) :
    TokGrid :=
  let cp := effCellPx W H metaCellPx
  let R := H / cp
  let C := W / cp
  (List.range R).map (fun i => (List.range C).map (fun j =>
    nearest_token pal (block_avg cp px i j)))

/-- Loop body of the folder second pass at one tile: write the ten
flags, then add the same-floor 4-directional neighbors one by one. -/
def stepCellImg (z R C i j : Nat) (tok : Str) (g : Graph) : Graph :=
  (inBoundsNbrKeys true z R C i j).foldl
    (fun g2 t => addNbr g2 (Key.k3 z i j) t)
    (g.set (Key.k3 z i j) (imgCellFlags tok (g.cells (Key.k3 z i j))))

/-- Loop body of the folder second pass at index p, including the
possibly failing access grid[i][j]. -/
def imgLayerStep (z R C : Nat) (grid : TokGrid) (g : Graph) (p : Nat × Nat) :
    Option Graph :=
  match grid[p.1]?.bind (fun row => row[p.2]?) with
  | none => none
  | some tok => some (stepCellImg z R C p.1 p.2 tok g)

/-- Second pass of parse_image_folder: flags and same-floor adjacency
per floor; len(grid[0]) raises on an empty grid (none), as does the
access grid[i][j] on a row shorter than the first. -/
def floorsAssemble (floors : List TokGrid) (g : Graph) : Option Graph :=
  floors.enum.foldlM (fun g zg =>
    match zg.2 with
    | [] => none
    | r0 :: _ =>
      (prodList zg.2.length r0.length).foldlM
        (imgLayerStep zg.1 zg.2.length r0.length zg.2) g) g

/-- Python membership test of the integer zi in the floors dict, whose
keys are exactly 0..Z-1. -/
def floorMem (zi : Int) (Z : Nat) : Bool := decide (0 ≤ zi ∧ zi < (Z : Int))

/-- Vertical-linkage update at one tile: a TD tile links to the same
(row, col) one floor down, a TU tile one floor up, both directions,
whenever the target floor exists in the floors dict. -/
def vertCell (Z z i j : Nat) (tok : Str) (g : Graph) : Graph :=
  let key := Key.k3 z i j
  let g1 := if tok = ['T', 'D'] ∧ floorMem ((z : Int) - 1) Z then
      addNbr (addNbr g key (Key.k3 (z - 1) i j)) (Key.k3 (z - 1) i j) key
    else g
  if tok = ['T', 'U'] ∧ floorMem ((z : Int) + 1) Z then
    addNbr (addNbr g1 key (Key.k3 (z + 1) i j)) (Key.k3 (z + 1) i j) key
  else g1

/-- Loop body of the vertical pass at index p. -/
def vertStep (Z z : Nat) (grid : TokGrid) (g : Graph) (p : Nat × Nat) :
    Option Graph :=
  match grid[p.1]?.bind (fun row => row[p.2]?) with
  | none => none
  | some tok => some (vertCell Z z p.1 p.2 tok g)

/-- Vertical-connectivity pass over all floors. -/
def vertPass (floors : List TokGrid) (g : Graph) : Option Graph :=
  floors.enum.foldlM (fun g zg =>
    match zg.2 with
    | [] => none
    | r0 :: _ =>
      (prodList zg.2.length r0.length).foldlM (vertStep floors.length zg.1 zg.2) g) g

/-- Room record of one well-formed sidecar line. -/
structure Room where
  rid : Str
  rname : Str
  r0 : Int
  c0 : Int
  r1 : Int
  c1 : Int

/-- Python range(lo, hi + 1) over integers. -/
def intRange (lo hi : Int) : List Int :=
  (List.range (hi + 1 - lo).toNat).map (fun k => lo + k)

/-- Room-overlay pass: tag every already-existing cell inside the
normalized box with the room id and name. A key with a negative tuple
component never occurs in the graph, so those iterations take the
not-in-graph skip. -/
def roomPass (Z : Nat) (roomsFor : Nat → List Room) (g : Graph) : Graph :=
  (List.range Z).foldl (fun g z =>
    (roomsFor z).foldl (fun g r =>
      let rr0 := min r.r0 r.r1
      let rr1 := max r.r0 r.r1
      let cc0 := min r.c0 r.c1
      let cc1 := max r.c0 r.c1
      (intRange rr0 rr1).foldl (fun g i =>
        (intRange cc0 cc1).foldl (fun g j =>
          if 0 ≤ i ∧ 0 ≤ j then
            let key := Key.k3 z i.toNat j.toNat
            if key ∈ g.keys then
              g.set key
                { g.cells key with room := some r.rid, room_name := some r.rname }
            else g
          else g) g) g) g) g

/-- parse_image_folder of floorparse.py, taking the decoded and already
ordered per-floor token grids and the per-floor room tables as inputs
(directory listing, floor ordering by floor_index_for, PIL decoding and
the sidecar file reads are outside the model). -/
def parse_image_folder (floors : List TokGrid) (roomsFor : Nat → List Room) :
    Option Graph :=
  (floorsAssemble floors Graph.empty).bind (fun g1 =>
    (vertPass floors g1).map (fun g2 => roomPass floors.length roomsFor g2))

/-- Case-insensitive equality of two characters, as re.I comparison. -/
def lcEq (a b : Char) : Bool := a.toLower == b.toLower

/-- Case-insensitive list-head match. -/
def startsWithCI : Str → Str → Bool
  | [], _ => true
  | _ :: _, [] => false
  | p :: ps, c :: cs => lcEq p c && startsWithCI ps cs

/-- Case-insensitive substring search, as re.search scanning left to
right. -/
def containsCI (pat : Str) : Str → Bool
  | [] => pat.isEmpty
  | c :: cs => startsWithCI pat (c :: cs) || containsCI pat cs

/-- floor_index_for of parse_image_folder. metaIdx models the decoded
map_meta annotation: some v when map_meta was present and decoded, with
v = int(m.get(floor_index, 0)); none when it was absent or failed to
decode. The filename fallback searches for the raw-string pattern
floor(\\d+), whose doubled backslash makes the regex match the letters
f l o o r followed by a literal backslash and a run of letters d (case
insensitively), not digits. When that pattern does match, group(1)
starts with the backslash, so int(m.group(1)) raises ValueError (none);
otherwise the function returns 0. -/
def floor_index_for (metaIdx : Option Int) (base : Str) : Option Int :=
  match metaIdx with
  | some idx => some idx
  | none =>
    if containsCI ['f', 'l', 'o', 'o', 'r', '\\', 'd'] base then none
    else some 0

/-- Fold of the mesh pairs, as the loop of applyMesh. -/
def meshFold (prs : List (Loc × Loc)) (g : Graph) : Graph :=
  prs.foldl (fun g ab => addNbr g (locKey ab.1) (locKey ab.2)) g

/-- Well-formed graph: a key not yet materialized holds the default
cell. Holds for every graph reachable from Graph.empty. -/
def WFg (g : Graph) : Prop := ∀ k, k ∉ g.keys → g.cells k = emptyCell

/-- Attribute set at grid position p (meaningful when the access
succeeds). -/
def cellAttrs (grid : Grid) (p : Nat × Nat) : Attrs :=
  (grid[p.1]?.bind (fun row => row[p.2]?)).getD ∅

/-- Token at grid position (i, j) of floor z (meaningful when the
access succeeds). -/
def tokAt (floors : List TokGrid) (z i j : Nat) : Str :=
  ((floors.getD z []).getD i []).getD j []

/-- Spec-side definition of the in-bounds 4-directional neighbor keys
of (i, j) in an R-by-C single-layer grid, written from the spec's words
rather than from the assembly loop. -/
def fourNbrsSpec (R C i j : Nat) : Finset Key :=
  ((Finset.range R ×ˢ Finset.range C).filter (fun p =>
    (p.1 = i ∧ (p.2 = j + 1 ∨ p.2 + 1 = j)) ∨
    (p.2 = j ∧ (p.1 = i + 1 ∨ p.1 + 1 = i)))).image (fun p => Key.k2 p.1 p.2)

/-- Attribute letters of tostr, in its BNSFWP order. -/
def tostrNames : List Char := ['B', 'N', 'S', 'F', 'W', 'P']

/-- The singleton token names present in an attribute set, in tostr
order: exactly what the 2-tuple branch of tostr prints for a cell
assembled from that attribute set. -/
def presentNames (attrs : Attrs) : List Str :=
  (tostrNames.filter (fun a => [a] ∈ attrs)).map (fun a => [a])

/-- The full string printed by the 2-tuple branch of tostr for a
single-column graph with R rows: each row's attribute string
right-justified to width 4 and followed by a newline. -/
def rowsJoin (R : Nat) (att : Nat → Str) : Str :=
  (List.range R).flatMap (fun i => rjust4 (att i) ++ ['\n'])

/-- Presence of a flag with an explicit boolean value 0 or 1. -/
def isBit (o : Option Nat) : Prop := o = some 0 ∨ o = some 1

/-- All six standard text-format flags present with boolean values. -/
def stdFlagsSet (c : Cell) : Prop :=
  isBit c.W ∧ isBit c.S ∧ isBit c.B ∧ isBit c.F ∧ isBit c.N ∧ isBit c.P

/-- All ten raster-format flags present with boolean values. -/
def allFlagsSet (c : Cell) : Prop :=
  stdFlagsSet c ∧ isBit c.SD ∧ isBit c.SU ∧ isBit c.TD ∧ isBit c.TU

/-- The tuple of all ten token flags of a cell, for stating that a pass
leaves every flag untouched. -/
def flagsOf (c : Cell) :
    Option Nat × Option Nat × Option Nat × Option Nat × Option Nat ×
    Option Nat × Option Nat × Option Nat × Option Nat × Option Nat :=
  (c.W, c.S, c.B, c.F, c.N, c.P, c.SD, c.SU, c.TD, c.TU)

/-- Nonempty rectangular grid. -/
def Rect {α : Type} (grid : List (List α)) : Prop :=
  grid ≠ [] ∧ ∀ row ∈ grid, row.length = grid.headI.length

/-- Bounds test of (i, j) within floor z's decoded extents (the loop
ranges of the folder passes). -/
def inbFloor (floors : List TokGrid) (z i j : Nat) : Prop :=
  i < (floors.getD z []).length ∧ j < (floors.getD z []).headI.length

instance inbFloorDec (floors : List TokGrid) (z i j : Nat) :
    Decidable (inbFloor floors z i j) :=
  inferInstanceAs (Decidable (_ ∧ _))

/-- Vertical-linkage relation: the ordered edge (k, n) is created by
the vertical pass from some in-bounds tile carrying a TD or TU token
whose target floor exists. -/
def vertRel (floors : List TokGrid) (k n : Key) : Prop :=
  ∃ z i j, z < floors.length ∧ inbFloor floors z i j ∧
    ((tokAt floors z i j = ['T', 'D'] ∧
      floorMem ((z : Int) - 1) floors.length ∧
      ((k = Key.k3 z i j ∧ n = Key.k3 (z - 1) i j) ∨
       (k = Key.k3 (z - 1) i j ∧ n = Key.k3 z i j))) ∨
     (tokAt floors z i j = ['T', 'U'] ∧
      floorMem ((z : Int) + 1) floors.length ∧
      ((k = Key.k3 z i j ∧ n = Key.k3 (z + 1) i j) ∨
       (k = Key.k3 (z + 1) i j ∧ n = Key.k3 z i j))))

/-! ### Basic graph lemmas -/

theorem cells_set_self (g : Graph) (k : Key) (c : Cell) :
    (g.set k c).cells k = c := by
  simp [Graph.set]

theorem cells_set_ne (g : Graph) (k : Key) (c : Cell) (q : Key) (h : q ≠ k) :
    (g.set k c).cells q = g.cells q := by
  simp [Graph.set, h]

theorem mem_keys_set (g : Graph) (k : Key) (c : Cell) (q : Key) :
    q ∈ (g.set k c).keys ↔ q ∈ g.keys ∨ q = k := by
  simp only [Graph.set]
  split
  · rename_i hk
    constructor
    · exact Or.inl
    · rintro (h | rfl)
      · exact h
      · exact hk
  · simp

/-! ### Portal-mesh characterization -/

theorem mem_locsOf (P : List (Str × Loc)) (pid : Str) (a : Loc) :
    a ∈ locsOf P pid ↔ (pid, a) ∈ P := by
  simp only [locsOf, List.mem_map, List.mem_filter, decide_eq_true_eq]
  constructor
  · rintro ⟨⟨p, l⟩, ⟨hmem, hp⟩, hl⟩
    cases hp; cases hl; exact hmem
  · intro h
    exact ⟨(pid, a), ⟨h, rfl⟩, rfl⟩

theorem mem_pidsOf (P : List (Str × Loc)) (pid : Str) :
    pid ∈ pidsOf P ↔ ∃ l, (pid, l) ∈ P := by
  simp only [pidsOf, List.mem_dedup, List.mem_map]
  constructor
  · rintro ⟨⟨p, l⟩, hmem, rfl⟩
    exact ⟨l, hmem⟩
  · rintro ⟨l, hmem⟩
    exact ⟨(pid, l), hmem, rfl⟩

theorem mem_meshPairs (P : List (Str × Loc)) (ab : Loc × Loc) :
    ab ∈ meshPairs P ↔
      ∃ pid, ab.1 ∈ locsOf P pid ∧ ab.2 ∈ locsOf P pid ∧ ab.1 ≠ ab.2 := by
  simp only [meshPairs, List.mem_flatMap, List.mem_filterMap]
  constructor
  · rintro ⟨pid, _hpid, a, ha, b, hb, hab⟩
    by_cases h : a = b
    · simp [h] at hab
    · simp only [h, if_neg, ite_eq_iff] at hab
      rcases hab with ⟨_, _⟩ | ⟨_, hs⟩
      · simp_all
      · cases hs
        exact ⟨pid, ha, hb, h⟩
  · rintro ⟨pid, ha, hb, hne⟩
    refine ⟨pid, ?_, ab.1, ha, ab.2, hb, ?_⟩
    · rw [mem_pidsOf]
      exact ⟨ab.1, (mem_locsOf P pid ab.1).mp ha⟩
    · simp [hne]

theorem applyMesh_eq (g : Graph) (P : List (Str × Loc)) :
    applyMesh g P = meshFold (meshPairs P) g := rfl

theorem nbrs_mono_addNbr (g : Graph) (k t q x : Key)
    (h : x ∈ (g.cells q).nbrs) : x ∈ ((addNbr g k t).cells q).nbrs := by
  by_cases hq : q = k
  · subst hq
    simp only [addNbr]
    rw [cells_set_self]
    exact Finset.mem_insert_of_mem h
  · rw [addNbr, cells_set_ne _ _ _ _ hq]
    exact h

theorem nbrs_mono_meshFold (prs : List (Loc × Loc)) (g : Graph) (q x : Key)
    (h : x ∈ (g.cells q).nbrs) : x ∈ ((meshFold prs g).cells q).nbrs := by
  induction prs generalizing g with
  | nil => exact h
  | cons hd tl ih =>
    exact ih _ (nbrs_mono_addNbr _ _ _ _ _ h)

theorem meshFold_edge (prs : List (Loc × Loc)) (g : Graph) (ab : Loc × Loc)
    (h : ab ∈ prs) :
    locKey ab.2 ∈ ((meshFold prs g).cells (locKey ab.1)).nbrs := by
  induction prs generalizing g with
  | nil => cases h
  | cons hd tl ih =>
    rcases List.mem_cons.mp h with rfl | hmem
    · refine nbrs_mono_meshFold tl _ _ _ ?_
      simp only [addNbr]
      rw [cells_set_self]
      exact Finset.mem_insert_self _ _
    · exact ih _ hmem

/-- C1: for every text input and every portal id with k distinct
recorded locations, the portal-connection pass adds exactly the full
mesh among those locations: the added ordered pairs lying among the
id's locations are precisely the k * (k - 1) ordered distinct pairs,
every added pair joins two distinct locations sharing some portal id
(never locations of different ids only), and every added pair is an
edge of the returned graph. -/
theorem claim_C1_portal_full_mesh (floor pid : Str) :
    ((meshPairs (allPortals floor)).toFinset.filter
        (fun ab => ab.1 ∈ (locsOf (allPortals floor) pid).toFinset ∧
                   ab.2 ∈ (locsOf (allPortals floor) pid).toFinset))
      = ((locsOf (allPortals floor) pid).toFinset).offDiag
    ∧ ((locsOf (allPortals floor) pid).toFinset).offDiag.card
        = (locsOf (allPortals floor) pid).toFinset.card *
          ((locsOf (allPortals floor) pid).toFinset.card - 1)
    ∧ (∀ ab ∈ meshPairs (allPortals floor), ab.1 ≠ ab.2 ∧
        ∃ q, ab.1 ∈ locsOf (allPortals floor) q ∧
             ab.2 ∈ locsOf (allPortals floor) q)
    ∧ (∀ g, parse floor = some g → ∀ ab ∈ meshPairs (allPortals floor),
        locKey ab.2 ∈ (g.cells (locKey ab.1)).nbrs) := by
  refine ⟨?_, ?_, ?_, ?_⟩
  · ext ab
    simp only [Finset.mem_filter, Finset.mem_offDiag, List.mem_toFinset,
      mem_meshPairs]
    constructor
    · rintro ⟨⟨q, _, _, hne⟩, ha, hb⟩
      exact ⟨ha, hb, hne⟩
    · rintro ⟨ha, hb, hne⟩
      exact ⟨⟨pid, ha, hb, hne⟩, ha, hb⟩
  · rw [Finset.offDiag_card]
    cases hk : (locsOf (allPortals floor) pid).toFinset.card with
    | zero => simp
    | succ n =>
      rw [Nat.succ_sub_one]
      ring_nf
      rw [pow_two]
      omega
  · intro ab hab
    rcases (mem_meshPairs _ ab).mp hab with ⟨q, ha, hb, hne⟩
    exact ⟨hne, q, ha, hb⟩
  · intro g hg ab hab
    rw [parse, Option.map_eq_some'] at hg
    rcases hg with ⟨g0, _, rfl⟩
    rw [applyMesh_eq]
    exact meshFold_edge _ _ _ hab

/-- Witness for C1 at a concrete input: the portal id Z1 occurs at two
distinct locations of the parsed graph and the mesh edge between them
is present in both directions. -/
theorem claim_C1_portal_full_mesh_witness :
    ((locsOf (allPortals ['Z', '1', ';', 'N', '\n', 'N', ';', 'Z', '1']) ['Z', '1']).toFinset).offDiag.card = 2 ∧
    ∀ g, parse ['Z', '1', ';', 'N', '\n', 'N', ';', 'Z', '1'] = some g →
      Key.k3 0 1 1 ∈ (g.cells (Key.k3 0 0 0)).nbrs := by
  constructor
  · have h := (claim_C1_portal_full_mesh
      ['Z', '1', ';', 'N', '\n', 'N', ';', 'Z', '1'] ['Z', '1']).2.1
    rw [h]
    decide
  · intro g hg
    have h := (claim_C1_portal_full_mesh
      ['Z', '1', ';', 'N', '\n', 'N', ';', 'Z', '1'] ['Z', '1']).2.2.2 g hg
        ((0, 0, 0), (0, 1, 1)) (by decide)
    exact h

/-! ### Assembly characterization -/

theorem wf_empty : WFg Graph.empty := fun _ _ => rfl

theorem wf_set (g : Graph) (k : Key) (c : Cell) (h : WFg g) :
    WFg (g.set k c) := by
  intro q hq
  rw [mem_keys_set] at hq
  push_neg at hq
  rw [cells_set_ne _ _ _ _ hq.2]
  exact h q hq.1

theorem mem_prodList (R C : Nat) (p : Nat × Nat) :
    p ∈ prodList R C ↔ p.1 < R ∧ p.2 < C := by
  cases p with
  | mk i j =>
    simp [prodList, List.mem_flatMap, List.mem_map, List.mem_range]

theorem nodup_prodList (R C : Nat) : (prodList R C).Nodup := by
  rw [prodList, List.nodup_flatMap]
  constructor
  · intro i _
    exact (List.nodup_range C).map (fun a b h => by simpa using h)
  · refine (List.pairwise_lt_range R).imp ?_
    intro a b hab
    simp only [Function.onFun, List.disjoint_left, List.mem_map]
    rintro x ⟨j, _, rfl⟩ ⟨j', _, hx⟩
    have : b = a := congrArg Prod.fst hx
    omega

theorem gridKey_inj (ml : Bool) (z : Nat) (p q : Nat × Nat)
    (h : gridKey ml z p.1 p.2 = gridKey ml z q.1 q.2) : p = q := by
  cases ml <;> simp only [gridKey, Bool.false_eq_true, if_false, if_true] at h <;>
    [skip; skip] <;> cases p <;> cases q <;> simp_all

theorem nodup_prodKeys (ml : Bool) (z R C : Nat) :
    ((prodList R C).map (fun p => gridKey ml z p.1 p.2)).Nodup :=
  (nodup_prodList R C).map_on (fun p _ q _ h => gridKey_inj ml z p q h)

/-- Characterization of the assembly fold over an arbitrary index list
with pairwise-distinct, not-yet-materialized target keys: the fold
succeeds exactly when all grid accesses do, appends the keys in order,
writes each listed cell once and leaves every other cell untouched. -/
theorem layerFold_char (ml : Bool) (z R C : Nat) (grid : Grid)
    (ks : List (Nat × Nat)) (g : Graph)
    (hacc : ∀ p ∈ ks, (grid[p.1]?.bind (fun row => row[p.2]?)) ≠ none)
    (hnd : (ks.map (fun p => gridKey ml z p.1 p.2)).Nodup)
    (hdisj : ∀ p ∈ ks, gridKey ml z p.1 p.2 ∉ g.keys) :
    ∃ g', ks.foldlM (layerStep ml z R C grid) g = some g' ∧
      g'.keys = g.keys ++ ks.map (fun p => gridKey ml z p.1 p.2) ∧
      (∀ p ∈ ks, g'.cells (gridKey ml z p.1 p.2) =
        assembledCell ml z R C p.1 p.2 (cellAttrs grid p)
          (g.cells (gridKey ml z p.1 p.2))) ∧
      (∀ q, q ∉ ks.map (fun p => gridKey ml z p.1 p.2) → g'.cells q = g.cells q) := by
  induction ks generalizing g with
  | nil =>
    exact ⟨g, rfl, by simp, by simp, fun q _ => rfl⟩
  | cons p rest ih =>
    obtain ⟨attrs, hattrs⟩ : ∃ a, grid[p.1]?.bind (fun row => row[p.2]?) = some a := by
      cases h : grid[p.1]?.bind (fun row => row[p.2]?) with
      | none => exact absurd h (hacc p (List.mem_cons_self p rest))
      | some a => exact ⟨a, rfl⟩
    have hstep : layerStep ml z R C grid g p =
        some (stepCell ml z R C p.1 p.2 attrs g) := by
      simp only [layerStep, hattrs]
    have hkey : gridKey ml z p.1 p.2 ∉ g.keys := hdisj p (List.mem_cons_self p rest)
    have hheadtail : gridKey ml z p.1 p.2 ∉
        rest.map (fun q => gridKey ml z q.1 q.2) := by
      have := hnd
      simp only [List.map_cons, List.nodup_cons] at this
      exact this.1
    set g1 := stepCell ml z R C p.1 p.2 attrs g with hg1
    have hg1keys : g1.keys = g.keys ++ [gridKey ml z p.1 p.2] := by
      simp only [hg1, stepCell, Graph.set, hkey, if_false]
    have hg1same : g1.cells (gridKey ml z p.1 p.2) =
        assembledCell ml z R C p.1 p.2 attrs (g.cells (gridKey ml z p.1 p.2)) := by
      simp only [hg1, stepCell]
      exact cells_set_self _ _ _
    have hg1other : ∀ q, q ≠ gridKey ml z p.1 p.2 → g1.cells q = g.cells q := by
      intro q hq
      simp only [hg1, stepCell]
      exact cells_set_ne _ _ _ _ hq
    obtain ⟨g', hfold, hkeys, hmem, hout⟩ := ih g1
      (fun q hq => hacc q (List.mem_cons_of_mem p hq))
      (by
        have := hnd
        simp only [List.map_cons, List.nodup_cons] at this
        exact this.2)
      (by
        intro q hq
        rw [hg1keys, List.mem_append]
        push_neg
        refine ⟨hdisj q (List.mem_cons_of_mem p hq), ?_⟩
        simp only [List.mem_singleton]
        intro hEq
        exact hheadtail (hEq ▸ List.mem_map_of_mem _ hq))
    refine ⟨g', ?_, ?_, ?_, ?_⟩
    · rw [List.foldlM_cons, hstep]
      exact hfold
    · rw [hkeys, hg1keys, List.map_cons, List.append_assoc, List.singleton_append]
    · intro q hq
      rcases List.mem_cons.mp hq with rfl | hq
      · rw [hout _ hheadtail, hg1same]
        have : cellAttrs grid q = attrs := by
          rw [cellAttrs, hattrs]
          rfl
        rw [this]
      · rw [hmem q hq, hg1other]
        intro hEq
        exact hheadtail (hEq ▸ List.mem_map_of_mem _ hq)
    · intro q hq
      simp only [List.map_cons, List.mem_cons] at hq
      push_neg at hq
      rw [hout q hq.2, hg1other q hq.1]

/-- Grid accesses of the assembly succeed when no row is shorter than
the first row of the layer. -/
theorem gridAccess_ok (grid : Grid) (p : Nat × Nat)
    (hrows : ∀ row ∈ grid, grid.headI.length ≤ row.length)
    (h1 : p.1 < grid.length) (h2 : p.2 < grid.headI.length) :
    (grid[p.1]?.bind (fun row => row[p.2]?)) ≠ none := by
  rw [List.getElem?_eq_getElem h1]
  have hlen : grid.headI.length ≤ grid[p.1].length :=
    hrows _ (List.getElem_mem h1)
  rw [Option.some_bind, List.getElem?_eq_getElem (lt_of_lt_of_le h2 hlen)]
  exact Option.some_ne_none _

/-- Characterization of one layer's assembly from a graph holding none
of the layer's keys, when no row is shorter than the first row. -/
theorem assembleLayer_char (ml : Bool) (z : Nat) (grid : Grid) (g : Graph)
    (hrows : ∀ row ∈ grid, grid.headI.length ≤ row.length)
    (hdisj : ∀ i j, gridKey ml z i j ∉ g.keys) :
    ∃ g', assembleLayer ml z grid g = some g' ∧
      g'.keys = g.keys ++ (prodList grid.length grid.headI.length).map
        (fun p => gridKey ml z p.1 p.2) ∧
      (∀ i j, i < grid.length → j < grid.headI.length →
        g'.cells (gridKey ml z i j) =
          assembledCell ml z grid.length grid.headI.length i j
            (cellAttrs grid (i, j)) (g.cells (gridKey ml z i j))) ∧
      (∀ q, (∀ i j, i < grid.length → j < grid.headI.length →
          q ≠ gridKey ml z i j) → g'.cells q = g.cells q) := by
  by_cases hg : grid = []
  · subst hg
    refine ⟨g, by simp [assembleLayer], by simp [prodList], ?_, fun q _ => rfl⟩
    intro i j hi
    simp at hi
  · obtain ⟨g', hfold, hkeys, hmem, hout⟩ :=
      layerFold_char ml z grid.length grid.headI.length grid
        (prodList grid.length grid.headI.length) g
        (fun p hp => gridAccess_ok grid p hrows ((mem_prodList _ _ _).mp hp).1
          ((mem_prodList _ _ _).mp hp).2)
        (nodup_prodKeys ml z _ _)
        (fun p _ => hdisj p.1 p.2)
    refine ⟨g', ?_, hkeys, ?_, ?_⟩
    · rw [assembleLayer, if_neg hg]
      exact hfold
    · intro i j hi hj
      exact hmem (i, j) ((mem_prodList _ _ _).mpr ⟨hi, hj⟩)
    · intro q hq
      refine hout q ?_
      intro hmemq
      rcases List.mem_map.mp hmemq with ⟨p, hp, rfl⟩
      rcases (mem_prodList _ _ _).mp hp with ⟨h1, h2⟩
      exact hq p.1 p.2 h1 h2 rfl

/-- Assembly of a single-grid list is assembly of that grid at z = 0. -/
theorem assembleAll_single (ml : Bool) (grid : Grid) :
    assembleAll ml [grid] = assembleLayer ml 0 grid Graph.empty := by
  simp [assembleAll, List.enum, List.foldlM_cons]

/-- Success of the assembly fold under the row-length condition alone. -/
theorem layerFold_ok (ml : Bool) (z R C : Nat) (grid : Grid)
    (ks : List (Nat × Nat)) (g : Graph)
    (hacc : ∀ p ∈ ks, (grid[p.1]?.bind (fun row => row[p.2]?)) ≠ none) :
    ∃ g', ks.foldlM (layerStep ml z R C grid) g = some g' := by
  induction ks generalizing g with
  | nil => exact ⟨g, rfl⟩
  | cons p rest ih =>
    obtain ⟨attrs, hattrs⟩ : ∃ a, grid[p.1]?.bind (fun row => row[p.2]?) = some a := by
      cases h : grid[p.1]?.bind (fun row => row[p.2]?) with
      | none => exact absurd h (hacc p (List.mem_cons_self p rest))
      | some a => exact ⟨a, rfl⟩
    obtain ⟨g', hg'⟩ := ih (stepCell ml z R C p.1 p.2 attrs g)
      (fun q hq => hacc q (List.mem_cons_of_mem p hq))
    refine ⟨g', ?_⟩
    rw [List.foldlM_cons]
    simp only [layerStep, hattrs]
    exact hg'

/-- Success of one layer's assembly under the row-length condition. -/
theorem assembleLayer_ok (ml : Bool) (z : Nat) (grid : Grid) (g : Graph)
    (hrows : ∀ row ∈ grid, grid.headI.length ≤ row.length) :
    ∃ g', assembleLayer ml z grid g = some g' := by
  by_cases hg : grid = []
  · exact ⟨g, by simp [assembleLayer, hg]⟩
  · obtain ⟨g', hg'⟩ := layerFold_ok ml z grid.length grid.headI.length grid
      (prodList grid.length grid.headI.length) g
      (fun p hp => gridAccess_ok grid p hrows ((mem_prodList _ _ _).mp hp).1
        ((mem_prodList _ _ _).mp hp).2)
    exact ⟨g', by rw [assembleLayer, if_neg hg]; exact hg'⟩

/-- Success of the whole assembly under the row-length condition on
every layer. -/
theorem assembleAll_ok (ml : Bool) (grids : List Grid)
    (h : ∀ grid ∈ grids, ∀ row ∈ grid, grid.headI.length ≤ row.length) :
    ∃ g, assembleAll ml grids = some g := by
  rw [assembleAll]
  suffices hgen : ∀ (n : Nat) (g : Graph),
      ∃ g', ((grids.enumFrom n).foldlM
        (fun g zg => assembleLayer ml zg.1 zg.2 g) g) = some g' by
    rw [List.enum]
    exact hgen 0 Graph.empty
  induction grids with
  | nil => exact fun n g => ⟨g, rfl⟩
  | cons hd tl ih =>
    intro n g
    obtain ⟨g1, hg1⟩ := assembleLayer_ok ml n hd g
      (h hd (List.mem_cons_self hd tl))
    obtain ⟨g', hg'⟩ := ih (fun grid hgrid => h grid (List.mem_cons_of_mem hd hgrid)) (n + 1) g1
    refine ⟨g', ?_⟩
    rw [List.enumFrom_cons, List.foldlM_cons, hg1]
    exact hg'

/-- Membership in the computed neighbor-key list, phrased over natural
coordinates. -/
theorem mem_inBoundsNbrKeys (ml : Bool) (z R C i j : Nat) (q : Key) :
    q ∈ inBoundsNbrKeys ml z R C i j ↔
      ∃ a b, q = gridKey ml z a b ∧ a < R ∧ b < C ∧
        ((a = i ∧ (b = j + 1 ∨ b + 1 = j)) ∨
         (b = j ∧ (a = i + 1 ∨ a + 1 = i))) := by
  rw [inBoundsNbrKeys]
  simp only [List.mem_filterMap, dirOffsets, List.mem_cons, List.not_mem_nil,
    or_false]
  constructor
  · rintro ⟨d, hd, hfd⟩
    rcases hd with rfl | rfl | rfl | rfl <;>
      dsimp only at hfd <;> split_ifs at hfd with hc <;>
      simp only [Option.some.injEq] at hfd <;> subst hfd
    · refine ⟨i - 1, j, ?_, by omega, by omega, Or.inr ⟨rfl, Or.inr (by omega)⟩⟩
      have e1 : ((i : Int) + -1).toNat = i - 1 := by omega
      have e2 : ((j : Int) + 0).toNat = j := by omega
      rw [e1, e2]
    · refine ⟨i + 1, j, ?_, by omega, by omega, Or.inr ⟨rfl, Or.inl rfl⟩⟩
      have e1 : ((i : Int) + 1).toNat = i + 1 := by omega
      have e2 : ((j : Int) + 0).toNat = j := by omega
      rw [e1, e2]
    · refine ⟨i, j - 1, ?_, by omega, by omega, Or.inl ⟨rfl, Or.inr (by omega)⟩⟩
      have e1 : ((i : Int) + 0).toNat = i := by omega
      have e2 : ((j : Int) + -1).toNat = j - 1 := by omega
      rw [e1, e2]
    · refine ⟨i, j + 1, ?_, by omega, by omega, Or.inl ⟨rfl, Or.inl rfl⟩⟩
      have e1 : ((i : Int) + 0).toNat = i := by omega
      have e2 : ((j : Int) + 1).toNat = j + 1 := by omega
      rw [e1, e2]
  · rintro ⟨a, b, rfl, ha, hb, hadj⟩
    rcases hadj with ⟨hai, hbj⟩ | ⟨hbj, hai⟩
    · rcases hbj with hbj | hbj
      · refine ⟨(0, 1), by simp, ?_⟩
        dsimp only
        rw [if_pos (by constructor <;> [omega; constructor <;> [omega; constructor <;> omega]])]
        have e1 : ((i : Int) + 0).toNat = a := by omega
        have e2 : ((j : Int) + 1).toNat = b := by omega
        rw [e1, e2]
      · refine ⟨(0, -1), by simp, ?_⟩
        dsimp only
        rw [if_pos (by constructor <;> [omega; constructor <;> [omega; constructor <;> omega]])]
        have e1 : ((i : Int) + 0).toNat = a := by omega
        have e2 : ((j : Int) + -1).toNat = b := by omega
        rw [e1, e2]
    · rcases hai with hai | hai
      · refine ⟨(1, 0), by simp, ?_⟩
        dsimp only
        rw [if_pos (by constructor <;> [omega; constructor <;> [omega; constructor <;> omega]])]
        have e1 : ((i : Int) + 1).toNat = a := by omega
        have e2 : ((j : Int) + 0).toNat = b := by omega
        rw [e1, e2]
      · refine ⟨(-1, 0), by simp, ?_⟩
        dsimp only
        rw [if_pos (by constructor <;> [omega; constructor <;> [omega; constructor <;> omega]])]
        have e1 : ((i : Int) + -1).toNat = a := by omega
        have e2 : ((j : Int) + 0).toNat = b := by omega
        rw [e1, e2]

/-- Membership in the spec-side 4-neighbor set. -/
theorem mem_fourNbrsSpec (R C i j : Nat) (q : Key) :
    q ∈ fourNbrsSpec R C i j ↔
      ∃ a b, q = Key.k2 a b ∧ a < R ∧ b < C ∧
        ((a = i ∧ (b = j + 1 ∨ b + 1 = j)) ∨
         (b = j ∧ (a = i + 1 ∨ a + 1 = i))) := by
  simp only [fourNbrsSpec, Finset.mem_image, Finset.mem_filter,
    Finset.mem_product, Finset.mem_range]
  constructor
  · rintro ⟨⟨a, b⟩, ⟨⟨ha, hb⟩, hadj⟩, rfl⟩
    exact ⟨a, b, rfl, ha, hb, hadj⟩
  · rintro ⟨a, b, rfl, ha, hb, hadj⟩
    exact ⟨(a, b), ⟨⟨ha, hb⟩, hadj⟩, rfl⟩

/-- In single-layer mode the computed neighbor keys are exactly the
spec-side 4-neighbor set. -/
theorem inBounds_toFinset_eq (z R C i j : Nat) :
    (inBoundsNbrKeys false z R C i j).toFinset = fourNbrsSpec R C i j := by
  ext q
  rw [List.mem_toFinset, mem_inBoundsNbrKeys, mem_fourNbrsSpec]
  simp only [gridKey, Bool.false_eq_true, if_false]

theorem length_prodList (R C : Nat) : (prodList R C).length = R * C := by
  induction R with
  | zero => simp [prodList]
  | succ n ih =>
    rw [prodList, List.range_succ, List.flatMap_append] at *
    simp only [List.length_append, ih, List.flatMap_cons, List.flatMap_nil,
      List.append_nil, List.length_map, List.length_range]
    ring

theorem meshPairs_nil : meshPairs [] = [] := rfl

theorem applyMesh_nil (g : Graph) : applyMesh g [] = g := rfl

/-- C3: for every well-formed (rectangular, portal-free) single-layer
text input with R kept rows and C cells per row, parse succeeds and
returns a graph with exactly R * C cells, keyed by the 2-component
coordinates of the grid; every cell's neighbor set is exactly its
in-bounds 4-directional neighbors, and adjacency is symmetric. -/
theorem claim_C3_single_layer (floor : Str) (R C : Nat)
    (hml : multilayer floor = false)
    (hR : (gridOfRows (layerRows (textLines floor))).length = R)
    (hC : ∀ row ∈ gridOfRows (layerRows (textLines floor)), row.length = C)
    (hnp : allPortals floor = []) :
    ∃ g, parse floor = some g ∧
      g.keys.length = R * C ∧
      (∀ q, q ∈ g.keys ↔ ∃ i, i < R ∧ ∃ j, j < C ∧ q = Key.k2 i j) ∧
      (∀ i j, i < R → j < C →
        (g.cells (Key.k2 i j)).nbrs = fourNbrsSpec R C i j) ∧
      (∀ a b, b ∈ (g.cells a).nbrs → a ∈ (g.cells b).nbrs) := by
  set grid := gridOfRows (layerRows (textLines floor)) with hgdef
  have hparse : parse floor = (assembleLayer false 0 grid Graph.empty).map
      (fun g => applyMesh g []) := by
    rw [parse, hml, hnp, parsedGrids, hml]
    simp only [Bool.false_eq_true, if_false, assembleAll_single]
  by_cases hgridnil : grid = []
  · have hR0 : R = 0 := by rw [← hR, hgridnil]; rfl
    refine ⟨Graph.empty, ?_, by simp [hR0, Graph.empty], ?_, ?_, ?_⟩
    · rw [hparse, hgridnil]
      simp [assembleLayer, applyMesh_nil]
    · intro q
      simp [Graph.empty, hR0]
    · intro i j hi
      rw [hR0] at hi
      exact absurd hi (Nat.not_lt_zero i)
    · intro a b hb
      simp only [Graph.empty, emptyCell] at hb
      exact absurd hb (Finset.not_mem_empty b)
  · have hCval : grid.headI.length = C := by
      apply hC
      rcases List.exists_cons_of_ne_nil hgridnil with ⟨r, rest, hcons⟩
      rw [hcons, List.headI_cons]
      exact hcons ▸ List.mem_cons_self r rest
    obtain ⟨g0, hg0, hkeys, hmem, hout⟩ :=
      assembleLayer_char false 0 grid Graph.empty
        (fun row hrow => by rw [hCval, hC row hrow])
        (fun i j => List.not_mem_nil _)
    rw [hR, hCval] at hkeys hmem hout
    have hmemiff : ∀ q, q ∈ g0.keys ↔
        ∃ i, i < R ∧ ∃ j, j < C ∧ q = Key.k2 i j := by
      intro q
      rw [hkeys]
      simp only [Graph.empty, List.nil_append, List.mem_map]
      constructor
      · rintro ⟨p, hp, rfl⟩
        rcases (mem_prodList _ _ _).mp hp with ⟨h1, h2⟩
        exact ⟨p.1, h1, p.2, h2, by simp [gridKey]⟩
      · rintro ⟨i, hi, j, hj, rfl⟩
        exact ⟨(i, j), (mem_prodList _ _ _).mpr ⟨hi, hj⟩, by simp [gridKey]⟩
    have hnbrs : ∀ i j, i < R → j < C →
        (g0.cells (Key.k2 i j)).nbrs = fourNbrsSpec R C i j := by
      intro i j hi hj
      have h := hmem i j hi hj
      simp only [gridKey, Bool.false_eq_true, if_false] at h
      rw [h]
      simp only [assembledCell, Graph.empty, emptyCell]
      rw [inBounds_toFinset_eq]
      simp
    have hempty : ∀ q, (¬ ∃ i, i < R ∧ ∃ j, j < C ∧ q = Key.k2 i j) →
        g0.cells q = emptyCell := by
      intro q hq
      have h := hout q (by
        intro i j hi hj hEq
        exact hq ⟨i, hi, j, hj, by simpa [gridKey] using hEq⟩)
      rw [h]
      rfl
    refine ⟨g0, ?_, ?_, hmemiff, hnbrs, ?_⟩
    · rw [hparse, hg0]
      simp [applyMesh_nil]
    · rw [hkeys]
      simp only [Graph.empty, List.nil_append, List.length_map]
      rw [length_prodList]
    · intro a b hb
      by_cases ha : ∃ i, i < R ∧ ∃ j, j < C ∧ a = Key.k2 i j
      · rcases ha with ⟨i, hi, j, hj, rfl⟩
        rw [hnbrs i j hi hj, mem_fourNbrsSpec] at hb
        rcases hb with ⟨x, y, rfl, hx, hy, hadj⟩
        rw [hnbrs x y hx hy, mem_fourNbrsSpec]
        refine ⟨i, j, rfl, hi, hj, ?_⟩
        rcases hadj with ⟨h1, h2 | h2⟩ | ⟨h1, h2 | h2⟩
        · exact Or.inl ⟨h1.symm, Or.inr (by omega)⟩
        · exact Or.inl ⟨h1.symm, Or.inl (by omega)⟩
        · exact Or.inr ⟨h1.symm, Or.inr (by omega)⟩
        · exact Or.inr ⟨h1.symm, Or.inl (by omega)⟩
      · rw [hempty a ha] at hb
        exact absurd hb (Finset.not_mem_empty b)

/-- A fully stripped-away line consists of whitespace only. -/
theorem pyStrip_eq_nil (l : Str) (h : pyStrip l = []) :
    ∀ a ∈ l, pySpace a = true := by
  rw [pyStrip, List.reverse_eq_nil_iff, List.dropWhile_eq_nil_iff] at h
  intro a ha
  rw [← List.takeWhile_append_dropWhile (p := pySpace) (l := l)] at ha
  rcases List.mem_append.mp ha with hmem | hmem
  · exact List.mem_takeWhile_imp hmem
  · exact h a (List.mem_reverse.mpr hmem)

/-- Blank lines are never layer markers (a marker starts with an equal
sign, which strip keeps). -/
theorem marker_not_blank (l : Str) (h : pyStrip l = []) :
    isMarkerLine l = false := by
  cases l with
  | nil => rfl
  | cons c rest =>
    have hc : pySpace c = true := pyStrip_eq_nil _ h c (List.mem_cons_self _ _)
    rw [pySpace] at hc
    simp only [Bool.or_eq_true, beq_iff_eq] at hc
    rcases hc with ((((rfl | rfl) | rfl) | rfl) | rfl) | rfl <;> rfl

/-- Counterexample to C4 as stated: the empty blob parses successfully
and returns a graph with no cells; no error is signalled and nothing
propagates to the caller. -/
theorem claim_C4_counterexample :
    ∃ g, parse [] = some g ∧ g.keys = [] := ⟨Graph.empty, rfl, rfl⟩

/-- C4 amended: a blob with no non-blank rows does not signal an error;
parse completes normally and returns the empty graph. -/
theorem claim_C4_amended (floor : Str)
    (h : ∀ line ∈ textLines floor, pyStrip line = []) :
    ∃ g, parse floor = some g ∧ g.keys = [] := by
  have hml : multilayer floor = false := by
    rw [multilayer, List.any_eq_false]
    intro line hline
    rw [marker_not_blank line (h line hline)]
    exact Bool.false_ne_true
  have hrows : layerRows (textLines floor) = [] := by
    rw [layerRows, List.filterMap_eq_nil_iff]
    intro line hline
    simp [h line hline]
  have hpg : parsedGrids floor = [[]] := by
    rw [parsedGrids, hml]
    simp [hrows, gridOfRows]
  have hap : allPortals floor = [] := by
    rw [allPortals, hml]
    simp [hrows, portalsOfRows]
  refine ⟨Graph.empty, ?_, rfl⟩
  rw [parse, hml, hpg, hap]
  rfl

/-- Witness for the amended C4 at a whitespace-only concrete input. -/
theorem claim_C4_amended_witness :
    ∃ g, parse [' ', '\n'] = some g ∧ g.keys = [] :=
  claim_C4_amended [' ', '\n'] (by decide)

/-- Counterexample to C5 as stated: the ragged input N;N then N, whose
second row is shorter than the first, makes the assembly access
grid[1][1] raise IndexError, so parse aborts instead of completing. -/
theorem claim_C5_counterexample :
    parse ['N', ';', 'N', '\n', 'N'] = none := rfl

/-- C5 amended: a ragged input is accepted whenever no row of a layer
is shorter than the layer's first row (cells beyond the first row's
length are silently ignored); a shorter row aborts the parse with an
index error. -/
theorem claim_C5_amended (floor : Str)
    (h : ∀ grid ∈ parsedGrids floor, ∀ row ∈ grid,
      grid.headI.length ≤ row.length) :
    ∃ g, parse floor = some g := by
  obtain ⟨g, hg⟩ := assembleAll_ok (multilayer floor) (parsedGrids floor) h
  exact ⟨applyMesh g (allPortals floor), by rw [parse, hg]; rfl⟩

/-- Witness for the amended C5 at a ragged concrete input whose second
row is longer than the first. -/
theorem claim_C5_amended_witness :
    ∃ g, parse ['N', '\n', 'N', ';', 'N'] = some g :=
  claim_C5_amended ['N', '\n', 'N', ';', 'N'] (by decide)

/-! ### Invariance lemmas for fold loops -/

theorem foldlM_inv {σ : Type} (P : Graph → Prop) (f : Graph → σ → Option Graph)
    (hf : ∀ g x g', P g → f g x = some g' → P g') :
    ∀ (l : List σ) (g g' : Graph), P g → l.foldlM f g = some g' → P g' := by
  intro l
  induction l with
  | nil =>
    intro g g' hP hfold
    rw [List.foldlM_nil] at hfold
    cases hfold
    exact hP
  | cons x xs ih =>
    intro g g' hP hfold
    rw [List.foldlM_cons] at hfold
    cases hfx : f g x with
    | none =>
      rw [hfx] at hfold
      cases hfold
    | some g1 =>
      rw [hfx] at hfold
      exact ih g1 g' (hf g x g1 hP hfx) hfold

theorem foldl_inv {σ : Type} (P : Graph → Prop) (f : Graph → σ → Graph)
    (hf : ∀ g x, P g → P (f g x)) :
    ∀ (l : List σ) (g : Graph), P g → P (l.foldl f g) := by
  intro l
  induction l with
  | nil => exact fun g hP => hP
  | cons x xs ih => exact fun g hP => ih (f g x) (hf g x hP)

/-- Single-layer invariant: all keys are 2-component and all neighbor
sets of 2-component cells contain only 2-component keys. -/
def K2Inv (g : Graph) : Prop :=
  (∀ k ∈ g.keys, isK3 k = false) ∧
  (∀ i j n, n ∈ (g.cells (Key.k2 i j)).nbrs → ∃ a b, n = Key.k2 a b)

theorem stepCell_k2_inv (z R C i j : Nat) (attrs : Attrs) (g : Graph)
    (hP : K2Inv g) : K2Inv (stepCell false z R C i j attrs g) := by
  have hkey : gridKey false z i j = Key.k2 i j := rfl
  constructor
  · intro k hk
    rw [stepCell, mem_keys_set] at hk
    rcases hk with hk | rfl
    · exact hP.1 k hk
    · rw [hkey]
      rfl
  · intro a b n hn
    rw [stepCell, hkey] at hn
    by_cases hab : Key.k2 a b = Key.k2 i j
    · rw [hab, cells_set_self] at hn
      simp only [assembledCell] at hn
      rcases Finset.mem_union.mp hn with hn | hn
      · exact hP.2 i j n hn
      · rcases (mem_inBoundsNbrKeys false z R C i j n).mp
          (List.mem_toFinset.mp hn) with ⟨x, y, rfl, _, _, _⟩
        exact ⟨x, y, rfl⟩
    · rw [cells_set_ne _ _ _ _ hab] at hn
      exact hP.2 a b n hn

theorem assembleAll_k2_inv (grids : List Grid) (g' : Graph)
    (h : assembleAll false grids = some g') : K2Inv g' := by
  have hstep : ∀ (g : Graph) (zg : Nat × Grid) (g1 : Graph), K2Inv g →
      assembleLayer false zg.1 zg.2 g = some g1 → K2Inv g1 := by
    intro g zg g1 hP hlay
    rw [assembleLayer] at hlay
    split at hlay
    · cases hlay
      exact hP
    · refine foldlM_inv K2Inv _ ?_ _ g g1 hP hlay
      intro g2 p g3 hP2 hstep2
      rw [layerStep] at hstep2
      split at hstep2
      · cases hstep2
      · rename_i attrs heq
        cases hstep2
        exact stepCell_k2_inv _ _ _ _ _ _ _ hP2
  refine foldlM_inv K2Inv _ hstep grids.enum Graph.empty g' ?_ h
  constructor
  · intro k hk
    cases hk
  · intro i j n hn
    cases hn

/-- Mesh edges only touch the neighbor sets of 3-component keys, so
the second component of the single-layer invariant survives the mesh. -/
theorem meshFold_k2_nbrs (prs : List (Loc × Loc)) (g : Graph)
    (hP : ∀ i j n, n ∈ (g.cells (Key.k2 i j)).nbrs → ∃ a b, n = Key.k2 a b) :
    ∀ i j n, n ∈ ((meshFold prs g).cells (Key.k2 i j)).nbrs →
      ∃ a b, n = Key.k2 a b := by
  induction prs generalizing g with
  | nil => exact hP
  | cons hd tl ih =>
    refine ih _ ?_
    intro i j n hn
    simp only [addNbr] at hn
    rw [cells_set_ne _ _ _ _ (fun h => Key.noConfusion h)] at hn
    exact hP i j n hn

/-- C10: in single-layer mode every portal occurrence is recorded with
a 3-component location (0, row, col); before the portal pass the graph
holds only 2-component grid keys, so the mesh writes to fresh
3-component entries; and no 2-component grid cell's neighbor set ever
contains anything but 2-component keys. -/
theorem claim_C10_portal_key_mismatch (floor : Str)
    (hml : multilayer floor = false) :
    (∀ pl ∈ allPortals floor, pl.2.1 = 0) ∧
    (∀ g0, assembleAll false (parsedGrids floor) = some g0 →
      ∀ k ∈ g0.keys, isK3 k = false) ∧
    (∀ g, parse floor = some g →
      ∀ i j n, n ∈ (g.cells (Key.k2 i j)).nbrs → ∃ a b, n = Key.k2 a b) := by
  refine ⟨?_, ?_, ?_⟩
  · rw [allPortals, hml]
    simp only [Bool.false_eq_true, if_false, portalsOfRows, List.mem_flatMap,
      List.mem_map]
    rintro pl ⟨ic, _, jc, _, pid, _, rfl⟩
    rfl
  · intro g0 hg0
    exact (assembleAll_k2_inv _ _ hg0).1
  · intro g hg
    rw [parse, hml, Option.map_eq_some'] at hg
    rcases hg with ⟨g0, hg0, rfl⟩
    rw [applyMesh_eq]
    exact meshFold_k2_nbrs _ _ (assembleAll_k2_inv _ _ hg0).2

/-- Witness for C10 at a concrete single-layer input with portals: the
first recorded occurrence of Z2 carries a 3-component location whose
layer component is zero. -/
theorem claim_C10_portal_key_mismatch_witness :
    (['Z', '2'], ((0 : Nat), (0 : Nat), (0 : Nat))) ∈
      allPortals ['Z', '2', ';', 'N', '\n', 'Z', '2', ';', 'N'] ∧
    ((['Z', '2'], ((0 : Nat), (0 : Nat), (0 : Nat))) : Str × Loc).2.1 = 0 :=
  ⟨by decide, (claim_C10_portal_key_mismatch
    ['Z', '2', ';', 'N', '\n', 'Z', '2', ';', 'N'] (by decide)).1
    (['Z', '2'], (0, 0, 0)) (by decide)⟩

/-! ### Color classification -/

theorem sqDist_nonneg (p q : Rgb) : 0 ≤ sqDist p q := by
  rw [sqDist]
  positivity

theorem sqDist_self (p : Rgb) : sqDist p p = 0 := by
  simp [sqDist]

theorem sqDist_pos (q e : Rgb) (h : e ≠ q) : 0 < sqDist q e := by
  obtain ⟨a1, a2, a3⟩ := q
  obtain ⟨b1, b2, b3⟩ := e
  rcases (sqDist_nonneg (a1, a2, a3) (b1, b2, b3)).lt_or_eq with hlt | heq
  · exact hlt
  · exfalso
    apply h
    rw [sqDist] at heq
    simp only at heq
    have h1 : ((a1 : Int) - b1) ^ 2 = 0 := by
      nlinarith [sq_nonneg ((a1 : Int) - b1), sq_nonneg ((a2 : Int) - b2),
        sq_nonneg ((a3 : Int) - b3)]
    have h2 : ((a2 : Int) - b2) ^ 2 = 0 := by
      nlinarith [sq_nonneg ((a1 : Int) - b1), sq_nonneg ((a2 : Int) - b2),
        sq_nonneg ((a3 : Int) - b3)]
    have h3 : ((a3 : Int) - b3) ^ 2 = 0 := by
      nlinarith [sq_nonneg ((a1 : Int) - b1), sq_nonneg ((a2 : Int) - b2),
        sq_nonneg ((a3 : Int) - b3)]
    have e1 : b1 = a1 := by
      have := (pow_eq_zero_iff two_ne_zero).mp h1
      omega
    have e2 : b2 = a2 := by
      have := (pow_eq_zero_iff two_ne_zero).mp h2
      omega
    have e3 : b3 = a3 := by
      have := (pow_eq_zero_iff two_ne_zero).mp h3
      omega
    rw [e1, e2, e3]

theorem nearestFold_fix (q : Rgb) (l : Palette) (s : Str × Int)
    (h : ∀ e ∈ l, s.2 ≤ sqDist q e.2) :
    l.foldl (fun best tc =>
      if sqDist q tc.2 < best.2 then (tc.1, sqDist q tc.2) else best) s = s := by
  induction l generalizing s with
  | nil => rfl
  | cons hd tl ih =>
    rw [List.foldl_cons, if_neg (not_lt.mpr (h hd (List.mem_cons_self _ _)))]
    exact ih s (fun e he => h e (List.mem_cons_of_mem _ he))

theorem nearestFold_bound (q : Rgb) (l : Palette) (d : Int) :
    ∀ s : Str × Int, d < s.2 → (∀ e ∈ l, d < sqDist q e.2) →
    d < (l.foldl (fun best tc =>
      if sqDist q tc.2 < best.2 then (tc.1, sqDist q tc.2) else best) s).2 := by
  induction l with
  | nil => exact fun s hs _ => hs
  | cons hd tl ih =>
    intro s hs h
    rw [List.foldl_cons]
    by_cases hc : sqDist q hd.2 < s.2
    · rw [if_pos hc]
      exact ih (hd.1, sqDist q hd.2) (h hd (List.mem_cons_self _ _))
        (fun e he => h e (List.mem_cons_of_mem _ he))
    · rw [if_neg hc]
      exact ih s hs (fun e he => h e (List.mem_cons_of_mem _ he))

/-- C9: classifying a color that exactly equals a palette entry's color
yields that entry's token whenever no earlier entry has the same color
(first conjunct), and in general the first palette entry attaining the
minimal squared distance wins every tie (second conjunct; the bound
10^12 is the initial best distance of the scan, far above any distance
between 8-bit colors). -/
theorem claim_C9_nearest_classification :
    (∀ (pal l1 l2 : Palette) (t : Str) (c : Rgb),
      pal = l1 ++ (t, c) :: l2 → (∀ e ∈ l1, e.2 ≠ c) →
      nearest_token pal c = t) ∧
    (∀ (pal l1 l2 : Palette) (t : Str) (c q : Rgb),
      pal = l1 ++ (t, c) :: l2 →
      (∀ e ∈ l1, sqDist q c < sqDist q e.2) →
      (∀ e ∈ l2, sqDist q c ≤ sqDist q e.2) →
      sqDist q c < 10 ^ 12 →
      nearest_token pal q = t) := by
  have main : ∀ (pal l1 l2 : Palette) (t : Str) (c q : Rgb),
      pal = l1 ++ (t, c) :: l2 →
      (∀ e ∈ l1, sqDist q c < sqDist q e.2) →
      (∀ e ∈ l2, sqDist q c ≤ sqDist q e.2) →
      sqDist q c < 10 ^ 12 →
      nearest_token pal q = t := by
    intro pal l1 l2 t c q hsplit hless hle hbound
    rw [nearest_token, hsplit, List.foldl_append, List.foldl_cons]
    have hs1 : sqDist q c <
        (l1.foldl (fun best tc =>
          if sqDist q tc.2 < best.2 then (tc.1, sqDist q tc.2) else best)
          (['N'], (10 ^ 12 : Int))).2 :=
      nearestFold_bound q l1 (sqDist q c) (['N'], (10 ^ 12 : Int)) hbound hless
    rw [if_pos hs1]
    rw [nearestFold_fix q l2 (t, sqDist q c) hle]
  refine ⟨?_, main⟩
  intro pal l1 l2 t c hsplit hne
  refine main pal l1 l2 t c c hsplit ?_ ?_ ?_
  · intro e he
    rw [sqDist_self]
    exact sqDist_pos c e.2 (hne e he)
  · intro e he
    rw [sqDist_self]
    exact sqDist_nonneg c e.2
  · rw [sqDist_self]
    norm_num

/-- Witness for C9: the default palette classifies the exact TD color
to TD and, at an equidistant query, the earlier entry wins. -/
theorem claim_C9_nearest_classification_witness :
    nearest_token DEFAULT_PAL (1, 102, 94) = ['T', 'D'] :=
  claim_C9_nearest_classification.1 DEFAULT_PAL
    [(['W'], (0, 0, 0)), (['N'], (191, 227, 240)), (['S'], (92, 184, 92)),
     (['B'], (33, 59, 143)), (['F'], (217, 83, 79)), (['P'], (91, 192, 222)),
     (['S', 'D'], (127, 59, 8)), (['S', 'U'], (179, 88, 6))]
    [(['T', 'U'], (53, 151, 143))]
    ['T', 'D'] (1, 102, 94) rfl (by decide)

/-- C7 (code bug evidence): the filename fallback of floor_index_for
never extracts digits. For the metadata-free files floor1.png and
floor2.png it returns 0 for both, so the declared filename numbers
cannot order the floors, contradicting the claim, the function's own
fallback comment and the docstring of parse_image_folder. -/
theorem claim_C7_floor_index_fallback :
    floor_index_for none ['f', 'l', 'o', 'o', 'r', '1', '.', 'p', 'n', 'g']
      = some 0 ∧
    floor_index_for none ['f', 'l', 'o', 'o', 'r', '2', '.', 'p', 'n', 'g']
      = some 0 ∧
    floor_index_for none
      ['f', 'l', 'o', 'o', 'r', '\\', 'd', '2', '.', 'p', 'n', 'g'] = none := by
  decide

/-- Witness for C3 at the concrete input N;W then S;F: a 2-by-2 grid. -/
theorem claim_C3_single_layer_witness :
    ∃ g, parse ['N', ';', 'W', '\n', 'S', ';', 'F'] = some g ∧
      g.keys.length = 2 * 2 ∧
      (∀ q, q ∈ g.keys ↔ ∃ i, i < 2 ∧ ∃ j, j < 2 ∧ q = Key.k2 i j) ∧
      (∀ i j, i < 2 → j < 2 →
        (g.cells (Key.k2 i j)).nbrs = fourNbrsSpec 2 2 i j) ∧
      (∀ a b, b ∈ (g.cells a).nbrs → a ∈ (g.cells b).nbrs) :=
  claim_C3_single_layer ['N', ';', 'W', '\n', 'S', ';', 'F'] 2 2
    (by decide) (by decide) (by decide) (by decide)

/-! ### Vertical linkage of the image-folder parser -/

theorem mem_addNbr (g : Graph) (k t q n : Key) :
    n ∈ ((addNbr g k t).cells q).nbrs ↔
      n ∈ (g.cells q).nbrs ∨ (q = k ∧ n = t) := by
  by_cases hq : q = k
  · subst hq
    simp only [addNbr, cells_set_self, Finset.mem_insert, true_and]
    tauto
  · simp only [addNbr, cells_set_ne _ _ _ _ hq, hq, false_and, or_false]

theorem vertCell_mem (Z z i j : Nat) (tok : Str) (g : Graph) (q n : Key) :
    n ∈ ((vertCell Z z i j tok g).cells q).nbrs ↔
      n ∈ (g.cells q).nbrs ∨
      (tok = ['T', 'D'] ∧ floorMem ((z : Int) - 1) Z ∧
        ((q = Key.k3 z i j ∧ n = Key.k3 (z - 1) i j) ∨
         (q = Key.k3 (z - 1) i j ∧ n = Key.k3 z i j))) ∨
      (tok = ['T', 'U'] ∧ floorMem ((z : Int) + 1) Z ∧
        ((q = Key.k3 z i j ∧ n = Key.k3 (z + 1) i j) ∨
         (q = Key.k3 (z + 1) i j ∧ n = Key.k3 z i j))) := by
  rw [vertCell]
  split_ifs with h1 h2 h2 <;> (try simp only [mem_addNbr]) <;> tauto

theorem vertCell_mono (Z z i j : Nat) (tok : Str) (g : Graph) (q : Key) :
    (g.cells q).nbrs ⊆ ((vertCell Z z i j tok g).cells q).nbrs := by
  intro n hn
  rw [vertCell_mem]
  exact Or.inl hn

theorem foldlM_nbrs_mono {σ : Type} (f : Graph → σ → Option Graph)
    (hf : ∀ g x g', f g x = some g' → ∀ k,
      (g.cells k).nbrs ⊆ ((g'.cells k)).nbrs) :
    ∀ (l : List σ) (g g' : Graph), l.foldlM f g = some g' →
      ∀ k, (g.cells k).nbrs ⊆ (g'.cells k).nbrs := by
  intro l
  induction l with
  | nil =>
    intro g g' hfold k
    rw [List.foldlM_nil] at hfold
    cases hfold
    exact fun _ h => h
  | cons x xs ih =>
    intro g g' hfold k
    rw [List.foldlM_cons] at hfold
    cases hfx : f g x with
    | none =>
      rw [hfx] at hfold
      cases hfold
    | some g1 =>
      rw [hfx] at hfold
      exact (hf g x g1 hfx k).trans (ih g1 g' hfold k)

/-- Invariance through a monadic fold, with list membership available
to the preservation hypothesis. -/
theorem foldlM_inv_mem {σ : Type} (P : Graph → Prop) (l : List σ)
    (f : Graph → σ → Option Graph)
    (hf : ∀ g x g', x ∈ l → P g → f g x = some g' → P g') :
    ∀ (g g' : Graph), P g → l.foldlM f g = some g' → P g' := by
  induction l with
  | nil =>
    intro g g' hP hfold
    rw [List.foldlM_nil] at hfold
    cases hfold
    exact hP
  | cons x xs ih =>
    intro g g' hP hfold
    rw [List.foldlM_cons] at hfold
    cases hfx : f g x with
    | none =>
      rw [hfx] at hfold
      cases hfold
    | some g1 =>
      rw [hfx] at hfold
      exact ih (fun g2 y g3 hy => hf g2 y g3 (List.mem_cons_of_mem x hy))
        g1 g' (hf g x g1 (List.mem_cons_self x xs) hP hfx) hfold

/-- The vertical pass only grows neighbor sets. -/
theorem vertPass_mono (floors : List TokGrid) (g g' : Graph)
    (h : vertPass floors g = some g') :
    ∀ k, (g.cells k).nbrs ⊆ (g'.cells k).nbrs := by
  rw [vertPass] at h
  refine foldlM_nbrs_mono _ ?_ _ _ _ h
  intro ga zg gb hstep k
  cases hzg : zg.2 with
  | nil =>
    rw [hzg] at hstep
    cases hstep
  | cons r0 rows =>
    rw [hzg] at hstep
    refine foldlM_nbrs_mono _ ?_ _ _ _ hstep k
    intro gc p gd hstep2 k2
    rw [vertStep] at hstep2
    split at hstep2
    · cases hstep2
    · cases hstep2
      exact vertCell_mono _ _ _ _ _ _ _

/-- Every neighbor present after the vertical pass was present before
or is a vertical-linkage edge. -/
theorem vertPass_sub (floors : List TokGrid) (g1 g2 : Graph)
    (h : vertPass floors g1 = some g2) :
    ∀ k n, n ∈ (g2.cells k).nbrs →
      n ∈ (g1.cells k).nbrs ∨ vertRel floors k n := by
  rw [vertPass] at h
  have hmain := foldlM_inv_mem
    (fun g => ∀ k n, n ∈ (g.cells k).nbrs →
      n ∈ (g1.cells k).nbrs ∨ vertRel floors k n)
    floors.enum _ ?_ g1 g2 (fun k n hn => Or.inl hn) h
  · exact hmain
  · intro ga zg gb hzg hP hstep
    cases hgrid : zg.2 with
    | nil =>
      rw [hgrid] at hstep
      cases hstep
    | cons r0 rows =>
      rw [hgrid] at hstep
      have hz : zg.2 = floors.getD zg.1 [] ∧ zg.1 < floors.length := by
        have hmem := List.mem_enum_iff_getElem?.mp hzg
        constructor
        · rw [List.getD_eq_getElem?_getD, hmem]
          rfl
        · exact (List.getElem?_eq_some.mp hmem).1
      refine foldlM_inv_mem
        (fun g => ∀ k n, n ∈ (g.cells k).nbrs →
          n ∈ (g1.cells k).nbrs ∨ vertRel floors k n) _ _ ?_ ga gb hP hstep
      intro gc p gd hp hPc hstep2
      rw [vertStep] at hstep2
      split at hstep2
      · cases hstep2
      · rename_i tok htok
        cases hstep2
        intro k n hn
        rcases (vertCell_mem _ _ _ _ _ _ _ _).mp hn with hn | hcond | hcond
        · exact hPc k n hn
        · refine Or.inr ⟨zg.1, p.1, p.2, hz.2, ?_, ?_⟩
          · rcases (mem_prodList _ _ _).mp hp with ⟨h1, h2⟩
            rw [inbFloor, ← hz.1, hgrid]
            exact ⟨hgrid ▸ h1, by simpa using h2⟩
          · refine Or.inl ⟨?_, hcond.2.1, hcond.2.2⟩
            have : tokAt floors zg.1 p.1 p.2 = tok := by
              rcases Option.bind_eq_some.mp htok with ⟨row, hrow, htokj⟩
              have hrowD : (r0 :: rows).getD p.1 [] = row := by
                rw [List.getD_eq_getElem?_getD, hrow]
                rfl
              have htokD : row.getD p.2 [] = tok := by
                rw [List.getD_eq_getElem?_getD, htokj]
                rfl
              rw [tokAt, ← hz.1, hgrid, hrowD, htokD]
            rw [this]
            exact hcond.1
        · refine Or.inr ⟨zg.1, p.1, p.2, hz.2, ?_, ?_⟩
          · rcases (mem_prodList _ _ _).mp hp with ⟨h1, h2⟩
            rw [inbFloor, ← hz.1, hgrid]
            exact ⟨hgrid ▸ h1, by simpa using h2⟩
          · refine Or.inr ⟨?_, hcond.2.1, hcond.2.2⟩
            have : tokAt floors zg.1 p.1 p.2 = tok := by
              rcases Option.bind_eq_some.mp htok with ⟨row, hrow, htokj⟩
              have hrowD : (r0 :: rows).getD p.1 [] = row := by
                rw [List.getD_eq_getElem?_getD, hrow]
                rfl
              have htokD : row.getD p.2 [] = tok := by
                rw [List.getD_eq_getElem?_getD, htokj]
                rfl
              rw [tokAt, ← hz.1, hgrid, hrowD, htokD]
            rw [this]
            exact hcond.1

/-- Membership after a fold of edge additions from one source key. -/
theorem addNbrFold_mem (ts : List Key) (g : Graph) (k q n : Key) :
    n ∈ ((ts.foldl (fun g t => addNbr g k t) g).cells q).nbrs ↔
      n ∈ (g.cells q).nbrs ∨ (q = k ∧ n ∈ ts) := by
  induction ts generalizing g with
  | nil => simp
  | cons t ts ih =>
    rw [List.foldl_cons, ih, mem_addNbr]
    simp only [List.mem_cons]
    tauto

/-- After the folder second pass every neighbor of a cell lies on the
same floor: vertical edges do not exist yet. -/
theorem floorsAssemble_same_z (floors : List TokGrid) (g' : Graph)
    (h : floorsAssemble floors Graph.empty = some g') :
    ∀ z i j n, n ∈ (g'.cells (Key.k3 z i j)).nbrs → ∃ a b, n = Key.k3 z a b := by
  rw [floorsAssemble] at h
  refine foldlM_inv
    (fun g => ∀ z i j n, n ∈ (g.cells (Key.k3 z i j)).nbrs →
      ∃ a b, n = Key.k3 z a b) _ ?_ floors.enum Graph.empty g'
    (fun z i j n hn => absurd hn (Finset.not_mem_empty n)) h
  intro ga zg gb hP hstep
  cases hzg : zg.2 with
  | nil =>
    rw [hzg] at hstep
    cases hstep
  | cons r0 rows =>
    rw [hzg] at hstep
    refine foldlM_inv
      (fun g => ∀ z i j n, n ∈ (g.cells (Key.k3 z i j)).nbrs →
        ∃ a b, n = Key.k3 z a b) _ ?_ _ ga gb hP hstep
    intro gc p gd hPc hstep2
    rw [imgLayerStep] at hstep2
    split at hstep2
    · cases hstep2
    · rename_i tok htok
      cases hstep2
      intro z i j n hn
      rw [stepCellImg] at hn
      rw [addNbrFold_mem] at hn
      rcases hn with hn | ⟨hq, hmem⟩
      · by_cases hk : Key.k3 z i j = Key.k3 zg.1 p.1 p.2
        · rw [hk, cells_set_self] at hn
          have hn2 : n ∈ (gc.cells (Key.k3 zg.1 p.1 p.2)).nbrs := by
            simpa [imgCellFlags] using hn
          rw [← hk] at hn2
          exact hPc z i j n hn2
        · rw [cells_set_ne _ _ _ _ hk] at hn
          exact hPc z i j n hn
      · have hz1 : z = zg.1 := by
          injection hq with e1 e2 e3
        rcases (mem_inBoundsNbrKeys true zg.1 _ _ p.1 p.2 n).mp hmem
          with ⟨a, b, rfl, _, _, _⟩
        exact ⟨a, b, by rw [hz1]; rfl⟩

/-- Folds whose every step keeps every cell's neighbor set keep them. -/
theorem foldl_nbrs_eq {σ : Type} (f : Graph → σ → Graph)
    (hf : ∀ g x k, ((f g x).cells k).nbrs = (g.cells k).nbrs) :
    ∀ (l : List σ) (g : Graph) (k : Key),
      ((l.foldl f g).cells k).nbrs = (g.cells k).nbrs := by
  intro l
  induction l with
  | nil => intro g k; rfl
  | cons x xs ih =>
    intro g k
    rw [List.foldl_cons, ih, hf]

/-- The room-overlay pass never changes a neighbor set. -/
theorem roomPass_nbrs (Z : Nat) (rf : Nat → List Room) (g : Graph) (k : Key) :
    ((roomPass Z rf g).cells k).nbrs = (g.cells k).nbrs := by
  rw [roomPass]
  refine foldl_nbrs_eq _ ?_ _ _ _
  intro ga z k1
  refine foldl_nbrs_eq _ ?_ _ _ _
  intro gb r k2
  refine foldl_nbrs_eq _ ?_ _ _ _
  intro gc i k3
  refine foldl_nbrs_eq _ ?_ _ _ _
  intro gd j k4
  dsimp only
  split_ifs with h1 h2
  · by_cases hk : k4 = Key.k3 z i.toNat j.toNat
    · rw [hk, cells_set_self]
    · rw [cells_set_ne _ _ _ _ hk]
  · rfl
  · rfl

/-- Every vertical-linkage edge is present after the vertical pass. -/
theorem vertPass_adds (floors : List TokGrid) (g1 g2 : Graph)
    (h : vertPass floors g1 = some g2) (k n : Key)
    (hrel : vertRel floors k n) : n ∈ (g2.cells k).nbrs := by
  have hstepmono : ∀ (Z z : Nat) (grid : TokGrid) (gx : Graph) (p : Nat × Nat)
      (gy : Graph), vertStep Z z grid gx p = some gy →
      ∀ q, (gx.cells q).nbrs ⊆ (gy.cells q).nbrs := by
    intro Z z grid gx p gy hstep q
    rw [vertStep] at hstep
    split at hstep
    · cases hstep
    · cases hstep
      exact vertCell_mono _ _ _ _ _ _ _
  have houtermono : ∀ (gx : Graph) (zg : Nat × TokGrid) (gy : Graph),
      (match zg.2 with
        | [] => none
        | r0 :: _ => (prodList zg.2.length r0.length).foldlM
            (vertStep floors.length zg.1 zg.2) gx) = some gy →
      ∀ q, (gx.cells q).nbrs ⊆ (gy.cells q).nbrs := by
    intro gx zg gy hstep q
    cases hzg : zg.2 with
    | nil =>
      rw [hzg] at hstep
      cases hstep
    | cons s0 srows =>
      rw [hzg] at hstep
      exact foldlM_nbrs_mono _ (fun ga p gb hs => hstepmono _ _ _ ga p gb hs)
        _ _ _ hstep q
  rcases hrel with ⟨z, i, j, hz, hinb, hcond⟩
  have hgz : floors[z]? = some (floors.getD z []) := by
    rw [List.getD_eq_getElem?_getD, List.getElem?_eq_getElem hz]
    rfl
  have hxmem : (z, floors.getD z []) ∈ floors.enum :=
    List.mem_enum_iff_getElem?.mpr hgz
  obtain ⟨l1, l2, hsplit⟩ := List.append_of_mem hxmem
  rw [vertPass, hsplit, List.foldlM_append] at h
  rcases Option.bind_eq_some.mp h with ⟨ga, _hpre, hrest⟩
  rw [List.foldlM_cons] at hrest
  rcases Option.bind_eq_some.mp hrest with ⟨gb, hstepz, hl2⟩
  cases hgrid : floors.getD z [] with
  | nil =>
    rw [hgrid] at hstepz
    cases hstepz
  | cons r0 rows =>
    rw [hgrid] at hstepz
    simp only at hstepz
    have hp : (i, j) ∈ prodList (r0 :: rows).length r0.length := by
      refine (mem_prodList _ _ _).mpr ⟨?_, ?_⟩
      · rw [← hgrid]
        exact hinb.1
      · have h2 := hinb.2
        rw [hgrid] at h2
        simpa using h2
    obtain ⟨m1, m2, hmsplit⟩ := List.append_of_mem hp
    rw [hmsplit, List.foldlM_append] at hstepz
    rcases Option.bind_eq_some.mp hstepz with ⟨gc, _hmpre, hmrest⟩
    rw [List.foldlM_cons] at hmrest
    rcases Option.bind_eq_some.mp hmrest with ⟨gd, hvstep, hmrest2⟩
    rw [vertStep] at hvstep
    split at hvstep
    · cases hvstep
    · rename_i tok haccess
      cases hvstep
      have htokAt : tokAt floors z i j = tok := by
        rcases Option.bind_eq_some.mp haccess with ⟨row, hrow, htokj⟩
        have hrowD : (r0 :: rows).getD i [] = row := by
          rw [List.getD_eq_getElem?_getD, hrow]
          rfl
        have htokD : row.getD j [] = tok := by
          rw [List.getD_eq_getElem?_getD, htokj]
          rfl
        rw [tokAt, hgrid, hrowD, htokD]
      have hedge : n ∈ ((vertCell floors.length z i j tok gc).cells k).nbrs := by
        rw [vertCell_mem]
        rw [htokAt] at hcond
        tauto
      have hgb : n ∈ (gb.cells k).nbrs :=
        foldlM_nbrs_mono _ (fun gx p gy hs => hstepmono _ _ _ gx p gy hs)
          m2 _ gb hmrest2 k hedge
      exact foldlM_nbrs_mono _ houtermono l2 gb g2 hl2 k hgb

/-- C8: in every graph built by parse_image_folder, a cross-floor edge
from (z,i,j) to (z',i',j') with z different from z' exists exactly when
the coordinates agree, both floors exist, the floors are adjacent, and
the lower or upper tile carries the matching teleport token (TD looking
down from z, or TU looking up from z' one floor below; symmetrically
for z' above z). In particular a TD tile links to the same (row, col)
one floor down exactly when that floor exists, TU symmetrically, no
edge is created toward an absent floor, and a facing TU/TD pair yields
the edge exactly once in each direction (neighbor sets hold an edge at
most once). -/
theorem claim_C8_vertical_linkage (floors : List TokGrid)
    (roomsFor : Nat → List Room) (g : Graph)
    (hg : parse_image_folder floors roomsFor = some g) :
    ∀ z i j z' i' j', z ≠ z' →
      (Key.k3 z' i' j' ∈ (g.cells (Key.k3 z i j)).nbrs ↔
        (i' = i ∧ j' = j ∧ z < floors.length ∧ z' < floors.length ∧
          ((z' + 1 = z ∧
            ((inbFloor floors z i j ∧ tokAt floors z i j = ['T', 'D']) ∨
             (inbFloor floors z' i j ∧ tokAt floors z' i j = ['T', 'U']))) ∨
           (z' = z + 1 ∧
            ((inbFloor floors z i j ∧ tokAt floors z i j = ['T', 'U']) ∨
             (inbFloor floors z' i j ∧ tokAt floors z' i j = ['T', 'D'])))))) := by
  rcases Option.bind_eq_some.mp hg with ⟨g1, h1, hmap⟩
  rcases Option.map_eq_some'.mp hmap with ⟨g2, h2, rfl⟩
  intro z i j z' i' j' hzz
  rw [roomPass_nbrs]
  constructor
  · intro hmem
    rcases vertPass_sub floors g1 g2 h2 _ _ hmem with hinit | hrel
    · exfalso
      rcases floorsAssemble_same_z floors g1 h1 z i j _ hinit with ⟨a, b, hab⟩
      apply hzz
      injection hab with e1 e2 e3
      exact e1.symm
    · rcases hrel with ⟨z0, i0, j0, hz0, hinb0, hcond⟩
      rcases hcond with ⟨htok, hfm, hpair⟩ | ⟨htok, hfm, hpair⟩
      · have hfm2 : 1 ≤ z0 ∧ z0 - 1 < floors.length := by
          rw [floorMem] at hfm
          simp only [decide_eq_true_eq] at hfm
          omega
        rcases hpair with ⟨hk, hn⟩ | ⟨hk, hn⟩
        · injection hk with ek1 ek2 ek3
          injection hn with en1 en2 en3
          refine ⟨by omega, by omega, by omega, by omega,
            Or.inl ⟨by omega, Or.inl ⟨?_, ?_⟩⟩⟩
          · rw [ek1, ek2, ek3]
            exact hinb0
          · rw [ek1, ek2, ek3]
            exact htok
        · injection hk with ek1 ek2 ek3
          injection hn with en1 en2 en3
          refine ⟨by omega, by omega, by omega, by omega,
            Or.inr ⟨by omega, Or.inr ⟨?_, ?_⟩⟩⟩
          · rw [en1, ek2, ek3]
            exact hinb0
          · rw [en1, ek2, ek3]
            exact htok
      · have hfm2 : z0 + 1 < floors.length := by
          rw [floorMem] at hfm
          simp only [decide_eq_true_eq] at hfm
          omega
        rcases hpair with ⟨hk, hn⟩ | ⟨hk, hn⟩
        · injection hk with ek1 ek2 ek3
          injection hn with en1 en2 en3
          refine ⟨by omega, by omega, by omega, by omega,
            Or.inr ⟨by omega, Or.inl ⟨?_, ?_⟩⟩⟩
          · rw [ek1, ek2, ek3]
            exact hinb0
          · rw [ek1, ek2, ek3]
            exact htok
        · injection hk with ek1 ek2 ek3
          injection hn with en1 en2 en3
          refine ⟨by omega, by omega, by omega, by omega,
            Or.inl ⟨by omega, Or.inr ⟨?_, ?_⟩⟩⟩
          · rw [en1, ek2, ek3]
            exact hinb0
          · rw [en1, ek2, ek3]
            exact htok
  · rintro ⟨rfl, rfl, hzZ, hz'Z, hdisj⟩
    refine vertPass_adds floors g1 g2 h2 _ _ ?_
    rcases hdisj with ⟨hz1, ⟨hinb, htok⟩ | ⟨hinb, htok⟩⟩ |
      ⟨hz1, ⟨hinb, htok⟩ | ⟨hinb, htok⟩⟩
    · refine ⟨z, i', j', hzZ, hinb, Or.inl ⟨htok, ?_, Or.inl ⟨rfl, ?_⟩⟩⟩
      · rw [floorMem]
        simp only [decide_eq_true_eq]
        omega
      · rw [show z' = z - 1 from by omega]
    · refine ⟨z', i', j', hz'Z, hinb, Or.inr ⟨htok, ?_, Or.inr ⟨?_, rfl⟩⟩⟩
      · rw [floorMem]
        simp only [decide_eq_true_eq]
        omega
      · rw [show z = z' + 1 from by omega]
    · refine ⟨z, i', j', hzZ, hinb, Or.inr ⟨htok, ?_, Or.inl ⟨rfl, ?_⟩⟩⟩
      · rw [floorMem]
        simp only [decide_eq_true_eq]
        omega
      · rw [show z' = z + 1 from by omega]
    · refine ⟨z', i', j', hz'Z, hinb, Or.inl ⟨htok, ?_, Or.inr ⟨?_, rfl⟩⟩⟩
      · rw [floorMem]
        simp only [decide_eq_true_eq]
        omega
      · rw [show z = z' - 1 from by omega]

/-- Witness for C8: three 3-by-4 floors where floor 0 tile (2,3) is TU
and floor 1 tile (2,3) is TD; the edge (0,2,3) to (1,2,3) exists in
both directions and floor 2 has no edge down to (1,2,3). -/
theorem claim_C8_vertical_linkage_witness :
    ∃ g, parse_image_folder
      [[[['N'], ['N'], ['N'], ['N']], [['N'], ['N'], ['N'], ['N']],
        [['N'], ['N'], ['N'], ['T', 'U']]],
       [[['N'], ['N'], ['N'], ['N']], [['N'], ['N'], ['N'], ['N']],
        [['N'], ['N'], ['N'], ['T', 'D']]],
       [[['N'], ['N'], ['N'], ['N']], [['N'], ['N'], ['N'], ['N']],
        [['N'], ['N'], ['N'], ['N']]]] (fun _ => []) = some g ∧
      Key.k3 1 2 3 ∈ (g.cells (Key.k3 0 2 3)).nbrs ∧
      Key.k3 0 2 3 ∈ (g.cells (Key.k3 1 2 3)).nbrs ∧
      Key.k3 1 2 3 ∉ (g.cells (Key.k3 2 2 3)).nbrs := by
  obtain ⟨g, hg⟩ : ∃ g, parse_image_folder
      [[[['N'], ['N'], ['N'], ['N']], [['N'], ['N'], ['N'], ['N']],
        [['N'], ['N'], ['N'], ['T', 'U']]],
       [[['N'], ['N'], ['N'], ['N']], [['N'], ['N'], ['N'], ['N']],
        [['N'], ['N'], ['N'], ['T', 'D']]],
       [[['N'], ['N'], ['N'], ['N']], [['N'], ['N'], ['N'], ['N']],
        [['N'], ['N'], ['N'], ['N']]]] (fun _ => []) = some g := ⟨_, rfl⟩
  have hiff := claim_C8_vertical_linkage _ _ g hg
  refine ⟨g, hg, ?_, ?_, ?_⟩
  · exact (hiff 0 2 3 1 2 3 (by decide)).mpr (by
      refine ⟨rfl, rfl, by decide, by decide, Or.inr ⟨rfl, Or.inl ⟨?_, ?_⟩⟩⟩ <;>
        decide)
  · exact (hiff 1 2 3 0 2 3 (by decide)).mpr (by
      refine ⟨rfl, rfl, by decide, by decide, Or.inl ⟨rfl, Or.inl ⟨?_, ?_⟩⟩⟩ <;>
        decide)
  · intro hmem
    have h := (hiff 2 2 3 1 2 3 (by decide)).mp hmem
    rcases h with ⟨_, _, _, _, ⟨_, ⟨_, ht⟩ | ⟨_, ht⟩⟩ | ⟨hz, _⟩⟩
    · exact absurd ht (by decide)
    · exact absurd ht (by decide)
    · omega

/-! ### Flag completeness -/

theorem keys_mono_set (g : Graph) (k' : Key) (c : Cell) (k : Key)
    (h : k ∈ g.keys) : k ∈ (g.set k' c).keys :=
  (mem_keys_set g k' c k).mpr (Or.inl h)

theorem foldl_inv_mem {σ : Type} (P : Graph → Prop) (l : List σ)
    (f : Graph → σ → Graph)
    (hf : ∀ g x, x ∈ l → P g → P (f g x)) :
    ∀ g, P g → P (l.foldl f g) := by
  induction l with
  | nil => exact fun g hP => hP
  | cons x xs ih =>
    intro g hP
    rw [List.foldl_cons]
    exact ih (fun g2 y hy => hf g2 y (List.mem_cons_of_mem x hy))
      (f g x) (hf g x (List.mem_cons_self x xs) hP)

theorem foldl_keys_mono {σ : Type} (f : Graph → σ → Graph)
    (hmono : ∀ g x k, k ∈ g.keys → k ∈ (f g x).keys) :
    ∀ (l : List σ) (g : Graph) (k : Key), k ∈ g.keys → k ∈ (l.foldl f g).keys := by
  intro l
  induction l with
  | nil => exact fun g k h => h
  | cons x xs ih =>
    intro g k h
    rw [List.foldl_cons]
    exact ih (f g x) k (hmono g x k h)

theorem foldl_key_present {σ : Type} (f : Graph → σ → Graph) (key : σ → Key)
    (hadd : ∀ g x, key x ∈ (f g x).keys)
    (hmono : ∀ g x k, k ∈ g.keys → k ∈ (f g x).keys) :
    ∀ (l : List σ) (g : Graph) (x : σ), x ∈ l → key x ∈ (l.foldl f g).keys := by
  intro l
  induction l with
  | nil =>
    intro g x hx
    cases hx
  | cons y ys ih =>
    intro g x hx
    rw [List.foldl_cons]
    rcases List.mem_cons.mp hx with rfl | hx
    · exact foldl_keys_mono f hmono ys (f g x) (key x) (hadd g x)
    · exact ih (f g y) x hx

theorem flagsOf_addNbr (g : Graph) (q t k : Key) :
    flagsOf ((addNbr g q t).cells k) = flagsOf (g.cells k) := by
  by_cases hk : k = q
  · subst hk
    simp only [addNbr, cells_set_self]
    rfl
  · simp only [addNbr, cells_set_ne _ _ _ _ hk]

theorem stdFlagsSet_congr (c c' : Cell) (h : flagsOf c = flagsOf c') :
    stdFlagsSet c ↔ stdFlagsSet c' := by
  rw [flagsOf, flagsOf] at h
  simp only [Prod.mk.injEq] at h
  obtain ⟨h1, h2, h3, h4, h5, h6, _, _, _, _⟩ := h
  rw [stdFlagsSet, stdFlagsSet, h1, h2, h3, h4, h5, h6]

theorem allFlagsSet_congr (c c' : Cell) (h : flagsOf c = flagsOf c') :
    allFlagsSet c ↔ allFlagsSet c' := by
  have hs := stdFlagsSet_congr c c' h
  rw [flagsOf, flagsOf] at h
  simp only [Prod.mk.injEq] at h
  obtain ⟨_, _, _, _, _, _, h7, h8, h9, h10⟩ := h
  rw [allFlagsSet, allFlagsSet, h7, h8, h9, h10, hs]

theorem stdFlagsSet_assembledCell (ml : Bool) (z R C i j : Nat)
    (attrs : Attrs) (c0 : Cell) :
    stdFlagsSet (assembledCell ml z R C i j attrs c0) := by
  rw [assembledCell]
  refine ⟨?_, ?_, ?_, ?_, ?_, ?_⟩ <;>
    · dsimp only [flagOf]
      split_ifs <;> simp [isBit]

theorem allFlagsSet_imgCellFlags (tok : Str) (c0 : Cell) :
    allFlagsSet (imgCellFlags tok c0) := by
  rw [imgCellFlags]
  refine ⟨⟨?_, ?_, ?_, ?_, ?_, ?_⟩, ?_, ?_, ?_, ?_⟩ <;>
    · dsimp only
      split_ifs <;> simp [isBit]

theorem foldlM_flags_eq {σ : Type} (f : Graph → σ → Option Graph)
    (hf : ∀ g x g', f g x = some g' → ∀ k,
      flagsOf (g'.cells k) = flagsOf (g.cells k)) :
    ∀ (l : List σ) (g g' : Graph), l.foldlM f g = some g' →
      ∀ k, flagsOf (g'.cells k) = flagsOf (g.cells k) := by
  intro l
  induction l with
  | nil =>
    intro g g' hfold k
    rw [List.foldlM_nil] at hfold
    cases hfold
    rfl
  | cons x xs ih =>
    intro g g' hfold k
    rw [List.foldlM_cons] at hfold
    cases hfx : f g x with
    | none =>
      rw [hfx] at hfold
      cases hfold
    | some g1 =>
      rw [hfx] at hfold
      rw [ih g1 g' hfold k, hf g x g1 hfx k]

theorem foldl_flags_eq {σ : Type} (f : Graph → σ → Graph)
    (hf : ∀ g x k, flagsOf ((f g x).cells k) = flagsOf (g.cells k)) :
    ∀ (l : List σ) (g : Graph) (k : Key),
      flagsOf ((l.foldl f g).cells k) = flagsOf (g.cells k) := by
  intro l
  induction l with
  | nil =>
    intro g k
    rfl
  | cons x xs ih =>
    intro g k
    rw [List.foldl_cons, ih, hf]

theorem flagsOf_vertCell (Z z i j : Nat) (tok : Str) (g : Graph) (k : Key) :
    flagsOf ((vertCell Z z i j tok g).cells k) = flagsOf (g.cells k) := by
  rw [vertCell]
  split_ifs <;> simp [flagsOf_addNbr]

/-- The vertical pass never changes a flag. -/
theorem vertPass_flags (floors : List TokGrid) (g g' : Graph)
    (h : vertPass floors g = some g') :
    ∀ k, flagsOf (g'.cells k) = flagsOf (g.cells k) := by
  rw [vertPass] at h
  refine foldlM_flags_eq _ ?_ _ _ _ h
  intro ga zg gb hstep k
  cases hzg : zg.2 with
  | nil =>
    rw [hzg] at hstep
    cases hstep
  | cons r0 rows =>
    rw [hzg] at hstep
    refine foldlM_flags_eq _ ?_ _ _ _ hstep k
    intro gc p gd hstep2 k2
    rw [vertStep] at hstep2
    split at hstep2
    · cases hstep2
    · cases hstep2
      exact flagsOf_vertCell _ _ _ _ _ _ _

/-- The room-overlay pass never changes a flag. -/
theorem roomPass_flags (Z : Nat) (rf : Nat → List Room) (g : Graph) (k : Key) :
    flagsOf (((roomPass Z rf g)).cells k) = flagsOf (g.cells k) := by
  rw [roomPass]
  refine foldl_flags_eq _ ?_ _ _ _
  intro ga z k1
  refine foldl_flags_eq _ ?_ _ _ _
  intro gb r k2
  refine foldl_flags_eq _ ?_ _ _ _
  intro gc i k3
  refine foldl_flags_eq _ ?_ _ _ _
  intro gd j k4
  dsimp only
  split_ifs with h1 h2
  · by_cases hk : k4 = Key.k3 z i.toNat j.toNat
    · rw [hk, cells_set_self]
      rfl
    · rw [cells_set_ne _ _ _ _ hk]
  · rfl
  · rfl

theorem foldlM_cells_eq_mem {σ : Type} (k : Key) (l : List σ)
    (f : Graph → σ → Option Graph)
    (hf : ∀ g x g', x ∈ l → f g x = some g' → g'.cells k = g.cells k) :
    ∀ (g g' : Graph), l.foldlM f g = some g' → g'.cells k = g.cells k := by
  induction l with
  | nil =>
    intro g g' h
    rw [List.foldlM_nil] at h
    cases h
    rfl
  | cons x xs ih =>
    intro g g' h
    rw [List.foldlM_cons] at h
    cases hfx : f g x with
    | none =>
      rw [hfx] at h
      cases h
    | some g1 =>
      rw [hfx] at h
      rw [ih (fun g2 y g3 hy => hf g2 y g3 (List.mem_cons_of_mem x hy)) g1 g' h,
        hf g x g1 (List.mem_cons_self x xs) hfx]

theorem stepCellImg_other (z R C i j : Nat) (tok : Str) (g : Graph) (q : Key)
    (hq : q ≠ Key.k3 z i j) :
    (stepCellImg z R C i j tok g).cells q = g.cells q := by
  rw [stepCellImg]
  have hfold : ∀ (ts : List Key) (g0 : Graph),
      (ts.foldl (fun g2 t => addNbr g2 (Key.k3 z i j) t) g0).cells q =
        g0.cells q := by
    intro ts
    induction ts with
    | nil => exact fun g0 => rfl
    | cons t ts ih =>
      intro g0
      rw [List.foldl_cons, ih]
      simp only [addNbr]
      exact cells_set_ne _ _ _ _ hq
  rw [hfold]
  exact cells_set_ne _ _ _ _ hq

theorem stepCellImg_flags_self (z R C i j : Nat) (tok : Str) (g : Graph) :
    allFlagsSet ((stepCellImg z R C i j tok g).cells (Key.k3 z i j)) := by
  rw [stepCellImg]
  have hfold : ∀ (ts : List Key) (g0 : Graph),
      flagsOf ((ts.foldl (fun g2 t => addNbr g2 (Key.k3 z i j) t) g0).cells
        (Key.k3 z i j)) = flagsOf (g0.cells (Key.k3 z i j)) := by
    intro ts
    induction ts with
    | nil => exact fun g0 => rfl
    | cons t ts ih =>
      intro g0
      rw [List.foldl_cons, ih, flagsOf_addNbr]
  rw [allFlagsSet_congr _ _ (hfold _ _), cells_set_self]
  exact allFlagsSet_imgCellFlags tok _

/-- Every in-bounds tile's cell has all ten flags after the folder
second pass. -/
theorem floorsAssemble_flags_inb (floors : List TokGrid) (g1 : Graph)
    (h : floorsAssemble floors Graph.empty = some g1) :
    ∀ z i j, z < floors.length → inbFloor floors z i j →
      allFlagsSet (g1.cells (Key.k3 z i j)) := by
  intro z i j hz hinb
  have hgz : floors[z]? = some (floors.getD z []) := by
    rw [List.getD_eq_getElem?_getD, List.getElem?_eq_getElem hz]
    rfl
  have hxmem : (z, floors.getD z []) ∈ floors.enum :=
    List.mem_enum_iff_getElem?.mpr hgz
  obtain ⟨l1, l2, hsplit⟩ := List.append_of_mem hxmem
  have hndz : ∀ zg ∈ l2, (zg : Nat × TokGrid).1 ≠ z := by
    have hnd : (floors.enum.map Prod.fst).Nodup := by
      rw [List.enum_map_fst]
      exact List.nodup_range _
    rw [hsplit] at hnd
    simp only [List.map_append, List.map_cons] at hnd
    have hnd2 := List.Nodup.of_append_right hnd
    rw [List.nodup_cons] at hnd2
    intro zg hzg hEq
    exact hnd2.1 (hEq ▸ List.mem_map_of_mem Prod.fst hzg)
  rw [floorsAssemble, hsplit, List.foldlM_append] at h
  rcases Option.bind_eq_some.mp h with ⟨ga, _hpre, hrest⟩
  rw [List.foldlM_cons] at hrest
  rcases Option.bind_eq_some.mp hrest with ⟨gb, hstepz, hl2⟩
  cases hgrid : floors.getD z [] with
  | nil =>
    exfalso
    have h2 := hinb.1
    rw [hgrid] at h2
    simp at h2
  | cons r0 rows =>
    rw [hgrid] at hstepz
    simp only at hstepz
    have hp : (i, j) ∈ prodList (r0 :: rows).length r0.length := by
      refine (mem_prodList _ _ _).mpr ⟨?_, ?_⟩
      · rw [← hgrid]
        exact hinb.1
      · have h2 := hinb.2
        rw [hgrid] at h2
        simpa using h2
    obtain ⟨m1, m2, hmsplit⟩ := List.append_of_mem hp
    have hm2 : (i, j) ∉ m2 := by
      have hnd := nodup_prodList (r0 :: rows).length r0.length
      rw [hmsplit] at hnd
      exact (List.nodup_cons.mp (List.Nodup.of_append_right hnd)).1
    rw [hmsplit, List.foldlM_append] at hstepz
    rcases Option.bind_eq_some.mp hstepz with ⟨gc, _hmpre, hmrest⟩
    rw [List.foldlM_cons] at hmrest
    rcases Option.bind_eq_some.mp hmrest with ⟨gd, hvstep, hmrest2⟩
    rw [imgLayerStep] at hvstep
    split at hvstep
    · cases hvstep
    · rename_i tok haccess
      rw [Option.some_inj] at hvstep
      have hflag : allFlagsSet (gd.cells (Key.k3 z i j)) := by
        rw [← hvstep]
        exact stepCellImg_flags_self _ _ _ _ _ _ _
      have hgb : gb.cells (Key.k3 z i j) = gd.cells (Key.k3 z i j) := by
        refine foldlM_cells_eq_mem (Key.k3 z i j) m2 _ ?_ gd gb hmrest2
        intro gx p gy hpmem hstep3
        rw [imgLayerStep] at hstep3
        split at hstep3
        · cases hstep3
        · cases hstep3
          refine stepCellImg_other _ _ _ _ _ _ _ _ ?_
          intro hEq
          injection hEq with e1 e2 e3
          apply hm2
          have hpij : p = (i, j) := by
            cases p
            simp_all
          rw [hpij] at hpmem
          exact hpmem
      have hfinal : g1.cells (Key.k3 z i j) = gb.cells (Key.k3 z i j) := by
        refine foldlM_cells_eq_mem (Key.k3 z i j) l2 _ ?_ gb g1 hl2
        intro gx zg gy hzgmem hstep4
        cases hzg2 : zg.2 with
        | nil =>
          rw [hzg2] at hstep4
          cases hstep4
        | cons s0 srows =>
          rw [hzg2] at hstep4
          refine foldlM_cells_eq_mem (Key.k3 z i j) _ _ ?_ gx gy hstep4
          intro gu p gv _ hstep5
          rw [imgLayerStep] at hstep5
          split at hstep5
          · cases hstep5
          · cases hstep5
            refine stepCellImg_other _ _ _ _ _ _ _ _ ?_
            intro hEq
            injection hEq with e1 e2 e3
            exact hndz zg hzgmem e1.symm
      rw [hfinal, hgb]
      exact hflag

theorem keys_set_mem (g : Graph) (k : Key) (c : Cell) (h : k ∈ g.keys) :
    (g.set k c).keys = g.keys := by
  simp [Graph.set, h]

theorem imgFlagLoop_inv (cp R C : Nat) (px : Px) (pal : Palette) :
    (∀ k ∈ (imgFlagLoop cp R C px pal).keys,
      allFlagsSet ((imgFlagLoop cp R C px pal).cells k)) ∧
    (∀ p ∈ prodList R C, Key.k2 p.1 p.2 ∈ (imgFlagLoop cp R C px pal).keys) := by
  constructor
  · rw [imgFlagLoop]
    refine foldl_inv (fun g => ∀ k ∈ g.keys, allFlagsSet (g.cells k)) _ ?_ _ _
      (fun k hk => absurd hk (List.not_mem_nil k))
    intro g p hP k hk
    rcases (mem_keys_set _ _ _ _).mp hk with hk | rfl
    · by_cases hkey : k = Key.k2 p.1 p.2
      · rw [hkey, cells_set_self]
        exact allFlagsSet_imgCellFlags _ _
      · rw [cells_set_ne _ _ _ _ hkey]
        exact hP k hk
    · rw [cells_set_self]
      exact allFlagsSet_imgCellFlags _ _
  · rw [imgFlagLoop]
    intro p hp
    refine foldl_key_present _ (fun p => Key.k2 p.1 p.2) ?_ ?_ _ _ p hp
    · intro g x
      exact (mem_keys_set _ _ _ _).mpr (Or.inr rfl)
    · intro g x k hk
      exact keys_mono_set _ _ _ _ hk

theorem imgNbrLoop_inv (R C : Nat) (g1 : Graph)
    (h1 : ∀ k ∈ g1.keys, allFlagsSet (g1.cells k))
    (h2 : ∀ p ∈ prodList R C, Key.k2 p.1 p.2 ∈ g1.keys) :
    ∀ k ∈ (imgNbrLoop R C g1).keys, allFlagsSet ((imgNbrLoop R C g1).cells k) := by
  rw [imgNbrLoop]
  have hinner : ∀ (src : Key) (ts : List Key) (g : Graph),
      (∀ k ∈ g.keys, allFlagsSet (g.cells k)) → src ∈ g.keys →
      (∀ k ∈ (ts.foldl (fun g2 t => addNbr g2 src t) g).keys,
        allFlagsSet ((ts.foldl (fun g2 t => addNbr g2 src t) g).cells k)) ∧
      (ts.foldl (fun g2 t => addNbr g2 src t) g).keys = g.keys := by
    intro src ts
    induction ts with
    | nil => exact fun g hP hsrc => ⟨hP, rfl⟩
    | cons t ts ih =>
      intro g hP hsrc
      rw [List.foldl_cons]
      have hkeys : (addNbr g src t).keys = g.keys := by
        simp only [addNbr]
        exact keys_set_mem _ _ _ hsrc
      have hP1 : ∀ k ∈ (addNbr g src t).keys, allFlagsSet ((addNbr g src t).cells k) := by
        intro k hk
        rw [allFlagsSet_congr _ _ (flagsOf_addNbr _ _ _ _)]
        rw [hkeys] at hk
        exact hP k hk
      have := ih (addNbr g src t) hP1 (by rw [hkeys]; exact hsrc)
      exact ⟨this.1, this.2.trans hkeys⟩
  refine (foldl_inv_mem
    (fun g => (∀ k ∈ g.keys, allFlagsSet (g.cells k)) ∧
      (∀ p ∈ prodList R C, Key.k2 p.1 p.2 ∈ g.keys))
    (prodList R C)
    (fun g p => (inBoundsNbrKeys false 0 R C p.1 p.2).foldl
      (fun g2 t => addNbr g2 (Key.k2 p.1 p.2) t) g)
    ?_ g1 ⟨h1, h2⟩).1
  intro g p hp hP
  have hres := hinner (Key.k2 p.1 p.2) (inBoundsNbrKeys false 0 R C p.1 p.2) g
    hP.1 (hP.2 p hp)
  refine ⟨hres.1, ?_⟩
  intro q hq
  rw [hres.2]
  exact hP.2 q hq

/-- Counterexample to C2 as stated: in the single-layer text input
Z1;Z1 the portal pass materializes the 3-component cell (0,0,0), which
has no W flag at all (nor any other token flag); the grid cell (0,0)
does have explicit flags. The returned key list and the flag values
are evaluated directly. -/
theorem claim_C2_counterexample :
    (parse ['Z', '1', ';', 'Z', '1']).map (fun g =>
      (g.keys, (g.cells (Key.k3 0 0 0)).W, (g.cells (Key.k3 0 0 0)).N,
        (g.cells (Key.k2 0 0)).W, (g.cells (Key.k2 0 0)).N))
      = some ([Key.k2 0 0, Key.k2 0 1, Key.k3 0 0 0, Key.k3 0 0 1],
          none, none, some 0, some 0) := rfl

/-- C2 amended: cells emitted by a grid-assembly loop always carry the
complete explicit boolean flag set of their format, and the neighbor
set is present from the moment a cell is materialized (the defaultdict
factory); but cells materialized solely as link targets carry only the
neighbor set. Concretely: (1) every key of a parsed text graph either
has the six standard flags with boolean values or is the 3-component
key of a recorded portal occurrence; (2) in single-layer mode every
3-component cell has no flags at all; (3) every key of a parse_image
graph has all ten flags; (4) every in-bounds cell of an image-folder
graph has all ten flags. -/
theorem claim_C2_amended_flags :
    (∀ (floor : Str) (g : Graph), parse floor = some g →
      ∀ k ∈ g.keys, stdFlagsSet (g.cells k) ∨
        ∃ pl ∈ allPortals floor, k = locKey pl.2) ∧
    (∀ (floor : Str) (g : Graph), multilayer floor = false →
      parse floor = some g →
      ∀ z i j, flagsOf (g.cells (Key.k3 z i j)) = flagsOf emptyCell) ∧
    (∀ (W H : Nat) (px : Px) (mcp : Option Int) (pal : Palette),
      ∀ k ∈ (parse_image W H px mcp pal).keys,
        allFlagsSet ((parse_image W H px mcp pal).cells k)) ∧
    (∀ (floors : List TokGrid) (roomsFor : Nat → List Room) (g : Graph),
      parse_image_folder floors roomsFor = some g →
      ∀ z i j, z < floors.length → inbFloor floors z i j →
        allFlagsSet (g.cells (Key.k3 z i j))) := by
  refine ⟨?_, ?_, ?_, ?_⟩
  · intro floor g hg k hk
    rw [parse, Option.map_eq_some'] at hg
    rcases hg with ⟨g0, hg0, rfl⟩
    have hP0 : ∀ k ∈ g0.keys, stdFlagsSet (g0.cells k) := by
      rw [assembleAll] at hg0
      refine foldlM_inv (fun g => ∀ k ∈ g.keys, stdFlagsSet (g.cells k)) _ ?_
        _ _ _ (fun k hk => absurd hk (List.not_mem_nil k)) hg0
      intro ga zg gb hP hstep
      rw [assembleLayer] at hstep
      split at hstep
      · cases hstep
        exact hP
      · refine foldlM_inv (fun g => ∀ k ∈ g.keys, stdFlagsSet (g.cells k)) _ ?_
          _ _ _ hP hstep
        intro gc p gd hPc hstep2
        rw [layerStep] at hstep2
        split at hstep2
        · cases hstep2
        · cases hstep2
          intro k hk
          rw [stepCell] at hk ⊢
          rcases (mem_keys_set _ _ _ _).mp hk with hk | rfl
          · by_cases hkey : k = gridKey (multilayer floor) zg.1 p.1 p.2
            · rw [hkey, cells_set_self]
              exact stdFlagsSet_assembledCell _ _ _ _ _ _ _ _
            · rw [cells_set_ne _ _ _ _ hkey]
              exact hPc k hk
          · rw [cells_set_self]
            exact stdFlagsSet_assembledCell _ _ _ _ _ _ _ _
    rw [applyMesh_eq, meshFold] at hk ⊢
    refine foldl_inv_mem
      (fun g => ∀ k ∈ g.keys, stdFlagsSet (g.cells k) ∨
        ∃ pl ∈ allPortals floor, k = locKey pl.2)
      (meshPairs (allPortals floor)) _ ?_ g0 (fun k hk => Or.inl (hP0 k hk))
      k hk
    intro g2 ab hab hP k2 hk2
    simp only [addNbr] at hk2 ⊢
    rcases (mem_keys_set _ _ _ _).mp hk2 with hk2 | rfl
    · by_cases hkey : k2 = locKey ab.1
      · rw [hkey, cells_set_self]
        rcases hP _ hk2 with hstd | hportal
        · left
          refine (stdFlagsSet_congr _ _ rfl).mpr ?_
          rw [← hkey]
          exact hstd
        · exact Or.inr (hkey ▸ hportal)
      · rw [cells_set_ne _ _ _ _ hkey]
        exact hP k2 hk2
    · right
      rcases (mem_meshPairs _ ab).mp hab with ⟨pid, ha, _, _⟩
      exact ⟨(pid, ab.1), (mem_locsOf _ _ _).mp ha, rfl⟩
  · intro floor g hml hg z i j
    rw [parse, hml, Option.map_eq_some'] at hg
    rcases hg with ⟨g0, hg0, rfl⟩
    have hP0 : ∀ z i j, flagsOf (g0.cells (Key.k3 z i j)) = flagsOf emptyCell := by
      rw [assembleAll] at hg0
      refine foldlM_inv
        (fun g => ∀ z i j, flagsOf (g.cells (Key.k3 z i j)) = flagsOf emptyCell)
        _ ?_ _ _ _ (fun z i j => rfl) hg0
      intro ga zg gb hP hstep
      rw [assembleLayer] at hstep
      split at hstep
      · cases hstep
        exact hP
      · refine foldlM_inv
          (fun g => ∀ z i j, flagsOf (g.cells (Key.k3 z i j)) = flagsOf emptyCell)
          _ ?_ _ _ _ hP hstep
        intro gc p gd hPc hstep2
        rw [layerStep] at hstep2
        split at hstep2
        · cases hstep2
        · cases hstep2
          intro z2 i2 j2
          rw [stepCell, cells_set_ne]
          · exact hPc z2 i2 j2
          · simp [gridKey]
    rw [applyMesh_eq, meshFold]
    rw [foldl_flags_eq (fun g ab => addNbr g (locKey ab.1) (locKey ab.2))
      (fun g ab k => flagsOf_addNbr _ _ _ _) (meshPairs (allPortals floor)) g0
      (Key.k3 z i j)]
    exact hP0 z i j
  · intro W H px mcp pal k hk
    rw [parse_image] at hk ⊢
    have h1 := imgFlagLoop_inv (effCellPx W H mcp) (H / effCellPx W H mcp)
      (W / effCellPx W H mcp) px pal
    exact imgNbrLoop_inv _ _ _ h1.1 h1.2 k hk
  · intro floors roomsFor g hg z i j hz hinb
    rcases Option.bind_eq_some.mp hg with ⟨g1, h1, hmap⟩
    rcases Option.map_eq_some'.mp hmap with ⟨g2, h2, rfl⟩
    rw [allFlagsSet_congr _ _ (roomPass_flags _ _ _ _)]
    rw [allFlagsSet_congr _ _ (vertPass_flags floors g1 g2 h2 _)]
    exact floorsAssemble_flags_inb floors g1 h1 z i j hz hinb

/-- Witness for the amended C2 at a concrete portal-free text input. -/
theorem claim_C2_amended_flags_witness :
    ∃ g, parse ['W', ';', 'S'] = some g ∧
      ∀ k ∈ g.keys, stdFlagsSet (g.cells k) ∨
        ∃ pl ∈ allPortals ['W', ';', 'S'], k = locKey pl.2 := by
  obtain ⟨g, hg⟩ : ∃ g, parse ['W', ';', 'S'] = some g := ⟨_, rfl⟩
  exact ⟨g, hg, claim_C2_amended_flags.1 ['W', ';', 'S'] g hg⟩

/-! ### String lemmas for the round-trip -/

theorem pySplit_ne_nil (sep : Char) (s : Str) : pySplit sep s ≠ [] := by
  cases s with
  | nil => simp [pySplit]
  | cons c rest =>
    simp only [pySplit]
    split_ifs
    · simp
    · split <;> simp

theorem pySplit_no_sep (sep : Char) (s : Str) (h : sep ∉ s) :
    pySplit sep s = [s] := by
  induction s with
  | nil => rfl
  | cons c rest ih =>
    have hc : c ≠ sep := fun hEq => h (hEq ▸ List.mem_cons_self c rest)
    simp only [pySplit, if_neg hc]
    rw [ih (fun hmem => h (List.mem_cons_of_mem c hmem))]

theorem pySplit_append_sep (sep : Char) (a b : Str) (ha : sep ∉ a) :
    pySplit sep (a ++ sep :: b) = a :: pySplit sep b := by
  induction a with
  | nil =>
    simp [pySplit]
  | cons c rest ih =>
    have hc : c ≠ sep := fun hEq => ha (hEq ▸ List.mem_cons_self c rest)
    have hrw := ih (fun hmem => ha (List.mem_cons_of_mem c hmem))
    show pySplit sep (c :: (rest ++ sep :: b)) = (c :: rest) :: pySplit sep b
    simp only [pySplit, if_neg hc]
    rw [hrw]

theorem normNewlines_eq_self (s : Str) (h : '\r' ∉ s) :
    normNewlines s = s := by
  induction s with
  | nil => rfl
  | cons c rest ih =>
    have hc : c ≠ '\r' := fun hEq => h (hEq ▸ List.mem_cons_self c rest)
    rw [normNewlines.eq_def]
    split
    · rename_i heq
      exfalso
      apply hc
      injection heq
    · rename_i c2 rest2 heq
      injection heq with e1 e2
      rw [← e1, ← e2, ih (fun hmem => h (List.mem_cons_of_mem c hmem))]
    · rename_i heq
      cases heq

theorem dropWhile_replicate_append (p : Char → Bool) (n : Nat) (c : Char)
    (hc : p c = true) (l : Str) :
    (List.replicate n c ++ l).dropWhile p = l.dropWhile p := by
  induction n with
  | zero => rfl
  | succ m ih =>
    rw [List.replicate_succ, List.cons_append, List.dropWhile_cons, hc]
    simp only [if_true]
    exact ih

theorem dropWhile_no_space (s : Str) (h : ∀ c ∈ s, pySpace c = false) :
    s.dropWhile pySpace = s := by
  rw [List.dropWhile_eq_self_iff]
  intro hne hsp
  simp [h _ (List.getElem_mem hne)] at hsp

theorem pyStrip_no_space (s : Str) (h : ∀ c ∈ s, pySpace c = false) :
    pyStrip s = s := by
  rw [pyStrip, dropWhile_no_space s h,
    dropWhile_no_space s.reverse
      (fun c hc => h c (List.mem_reverse.mp hc)),
    List.reverse_reverse]

theorem pyStrip_rjust (s : Str) (h : ∀ c ∈ s, pySpace c = false) :
    pyStrip (rjust4 s) = s := by
  rw [rjust4, pyStrip, dropWhile_replicate_append pySpace _ ' ' rfl s,
    dropWhile_no_space s h,
    dropWhile_no_space s.reverse
      (fun c hc => h c (List.mem_reverse.mp hc)),
    List.reverse_reverse]

theorem pySplit_joinComma (names : List Str) (hne : names ≠ [])
    (h : ∀ n ∈ names, ',' ∉ n) :
    pySplit ',' (joinComma names) = names := by
  induction names with
  | nil => exact absurd rfl hne
  | cons n rest ih =>
    cases rest with
    | nil =>
      rw [joinComma]
      exact pySplit_no_sep ',' n (h n (List.mem_cons_self _ _))
    | cons m rest2 =>
      rw [joinComma.eq_def]
      simp only
      rw [pySplit_append_sep ',' n _ (h n (List.mem_cons_self _ _))]
      rw [ih (by simp) (fun q hq => h q (List.mem_cons_of_mem n hq))]

theorem pySplit_lines (rows : List Str) (h : ∀ r ∈ rows, '\n' ∉ r) :
    pySplit '\n' (rows.flatMap (fun r => r ++ ['\n'])) = rows ++ [[]] := by
  induction rows with
  | nil => rfl
  | cons r rest ih =>
    rw [List.flatMap_cons, List.append_assoc, List.singleton_append,
      pySplit_append_sep '\n' r _ (h r (List.mem_cons_self _ _))]
    rw [ih (fun q hq => h q (List.mem_cons_of_mem r hq))]
    rfl

theorem foldl_max_range : ∀ R : Nat, (List.range R).foldl max 0 = R - 1 := by
  intro R
  induction R with
  | zero => rfl
  | succ n ih =>
    rw [List.range_succ, List.foldl_append, ih]
    simp only [List.foldl_cons, List.foldl_nil]
    omega

theorem foldl_max_zero (l : List Nat) (h : ∀ x ∈ l, x = 0) :
    l.foldl max 0 = 0 := by
  induction l with
  | nil => rfl
  | cons x xs ih =>
    rw [List.foldl_cons, h x (List.mem_cons_self _ _)]
    exact ih (fun q hq => h q (List.mem_cons_of_mem x hq))

theorem mapM_option_eq_map {α β : Type} (f : α → Option β) (g : α → β)
    (l : List α) (h : ∀ x ∈ l, f x = some (g x)) :
    l.mapM f = some (l.map g) := by
  induction l with
  | nil => rfl
  | cons x xs ih =>
    rw [List.mapM_cons, h x (List.mem_cons_self _ _),
      ih (fun q hq => h q (List.mem_cons_of_mem x hq))]
    rfl

theorem filterMap_option_eq_map {α β : Type} (f : α → Option β) (g : α → β)
    (l : List α) (h : ∀ x ∈ l, f x = some (g x)) :
    l.filterMap f = l.map g := by
  induction l with
  | nil => rfl
  | cons x xs ih =>
    rw [List.filterMap_cons, h x (List.mem_cons_self _ _),
      ih (fun q hq => h q (List.mem_cons_of_mem x hq)), List.map_cons]

theorem mem_joinComma (c : Char) (l : List Str) (hc : c ∈ joinComma l) :
    c = ',' ∨ ∃ n ∈ l, c ∈ n := by
  induction l with
  | nil => cases hc
  | cons n rest ih =>
    cases rest with
    | nil =>
      rw [joinComma] at hc
      exact Or.inr ⟨n, List.mem_cons_self _ _, hc⟩
    | cons m rest2 =>
      rw [joinComma.eq_def] at hc
      simp only at hc
      rcases List.mem_append.mp hc with hmem | hmem
      · exact Or.inr ⟨n, List.mem_cons_self _ _, hmem⟩
      · rcases List.mem_cons.mp hmem with rfl | hmem
        · exact Or.inl rfl
        · rcases ih hmem with h1 | ⟨q, hq, hcq⟩
          · exact Or.inl h1
          · exact Or.inr ⟨q, List.mem_cons_of_mem n hq, hcq⟩

theorem joinComma_ne_nil (l : List Str) (hne : l ≠ [])
    (h : ∀ n ∈ l, n ≠ []) : joinComma l ≠ [] := by
  cases l with
  | nil => exact absurd rfl hne
  | cons n rest =>
    cases rest with
    | nil => exact h n (List.mem_cons_self _ _)
    | cons m rest2 =>
      rw [joinComma.eq_def]
      simp only
      intro hEq
      rcases List.append_eq_nil.mp hEq with ⟨h1, h2⟩
      cases h2

theorem pySplit_lines' {α : Type} (l : List α) (f : α → Str)
    (h : ∀ x ∈ l, '\n' ∉ f x) :
    pySplit '\n' (l.flatMap (fun x => f x ++ ['\n'])) = l.map f ++ [[]] := by
  induction l with
  | nil => rfl
  | cons x rest ih =>
    rw [List.flatMap_cons, List.append_assoc, List.singleton_append,
      pySplit_append_sep '\n' (f x) _ (h x (List.mem_cons_self _ _)),
      ih (fun q hq => h q (List.mem_cons_of_mem x hq))]
    rfl

theorem mem_presentNames (A : Attrs) (a : Char) :
    [a] ∈ presentNames A ↔ a ∈ tostrNames ∧ [a] ∈ A := by
  simp only [presentNames, List.mem_map, List.mem_filter, decide_eq_true_eq]
  constructor
  · rintro ⟨b, ⟨hb, hbA⟩, hEq⟩
    have : a = b := by
      injection hEq.symm
    rw [this]
    exact ⟨hb, hbA⟩
  · rintro ⟨ha, hA⟩
    exact ⟨a, ⟨ha, hA⟩, rfl⟩

theorem marker_false_rjust (a : Str)
    (h : ∀ c ∈ a, c = ',' ∨ c ∈ tostrNames) :
    isMarkerLine (rjust4 a) = false := by
  rw [rjust4]
  cases hn : 4 - a.length with
  | zero =>
    rw [List.replicate_zero, List.nil_append]
    cases a with
    | nil => rfl
    | cons c rest =>
      rcases h c (List.mem_cons_self _ _) with rfl | hc
      · rfl
      · rw [tostrNames] at hc
        rcases List.mem_cons.mp hc with rfl | hc
        · rfl
        · rcases List.mem_cons.mp hc with rfl | hc
          · rfl
          · rcases List.mem_cons.mp hc with rfl | hc
            · rfl
            · rcases List.mem_cons.mp hc with rfl | hc
              · rfl
              · rcases List.mem_cons.mp hc with rfl | hc
                · rfl
                · rcases List.mem_cons.mp hc with rfl | hc
                  · rfl
                  · cases hc
  | succ m =>
    rw [List.replicate_succ, List.cons_append]
    rfl

theorem attStr2_assembled (ml : Bool) (z R C i j : Nat) (A : Attrs) (c0 : Cell) :
    attStr2 (assembledCell ml z R C i j A c0) =
      some (joinComma (presentNames A)) := by
  by_cases hB : ['B'] ∈ A <;> by_cases hN : ['N'] ∈ A <;>
    by_cases hS : ['S'] ∈ A <;> by_cases hF : ['F'] ∈ A <;>
    by_cases hW : ['W'] ∈ A <;> by_cases hP : ['P'] ∈ A <;>
    simp [attStr2, tostrFlags, assembledCell, flagOf, presentNames, tostrNames,
      joinComma, List.mapM.loop, hB, hN, hS, hF, hW, hP]

/-- Computation of tostr on a single-column graph: the 2-tuple branch
prints each row's attribute string right-justified to width 4, one row
per line. -/
theorem tostr_singlecol (g : Graph) (n : Nat) (att : Nat → Str)
    (hkeys : g.keys = (List.range (n + 1)).map (fun i => Key.k2 i 0))
    (hatts : ∀ i, i < n + 1 → attStr2 (g.cells (Key.k2 i 0)) = some (att i)) :
    tostr g = some (rowsJoin (n + 1) att) := by
  have hr : (((List.range (n + 1)).map (fun i => Key.k2 i 0)).map keyFst).foldl
      max 0 = n := by
    rw [List.map_map]
    have he : (keyFst ∘ fun i => Key.k2 i 0) = fun i => i := funext (fun i => rfl)
    rw [he, List.map_id', foldl_max_range]
    omega
  have hc : (((List.range (n + 1)).map (fun i => Key.k2 i 0)).map keySnd).foldl
      max 0 = 0 := by
    apply foldl_max_zero
    intro x hx
    rcases List.mem_map.mp hx with ⟨k, hk, rfl⟩
    rcases List.mem_map.mp hk with ⟨i, _, rfl⟩
    rfl
  have hterm : (List.range (n + 1)).map (fun i => Key.k2 i 0) =
      Key.k2 0 0 :: ((List.range n).map Nat.succ).map (fun i => Key.k2 i 0) := by
    rw [List.range_succ_eq_map, List.map_cons]
  rw [tostr, hkeys]
  rcases hKT : (List.range (n + 1)).map (fun i => Key.k2 i 0) with _ | ⟨khd, ktl⟩
  · exfalso
    have := congrArg List.length hKT
    simp at this
  · have hinj := hKT.symm.trans hterm
    injection hinj with e1 e2
    subst e1
    simp only [isK3, Bool.false_eq_true, if_false]
    rw [← hKT, hr, hc]
    have hmain : (List.range (n + 1)).mapM (fun i =>
        ((List.range (0 + 1)).mapM (fun j =>
          (g.find? (Key.k2 i j)).bind attStr2)).map
          (fun atts => (atts.map rjust4).flatten ++ ['\n'])) =
        some ((List.range (n + 1)).map (fun i => rjust4 (att i) ++ ['\n'])) := by
      apply mapM_option_eq_map
      intro i hi
      have hiR : i < n + 1 := List.mem_range.mp hi
      have hfind : g.find? (Key.k2 i 0) = some (g.cells (Key.k2 i 0)) := by
        rw [Graph.find?, if_pos]
        rw [hkeys]
        exact List.mem_map_of_mem _ (List.mem_range.mpr hiR)
      have hinner : (List.range (0 + 1)).mapM (fun j =>
          (g.find? (Key.k2 i j)).bind attStr2) = some [att i] := by
        have h01 : (0 : Nat) + 1 = 1 := rfl
        rw [h01, show List.range 1 = [0] from rfl]
        rw [show ([0] : List Nat).mapM (fun j =>
            (g.find? (Key.k2 i j)).bind attStr2) =
          ((g.find? (Key.k2 i 0)).bind attStr2).bind
            (fun b => some [b]) from rfl]
        rw [hfind, Option.some_bind, hatts i hiR]
        rfl
      rw [hinner]
      simp [rjust4]
    rw [hmain]
    simp [rowsJoin, List.flatMap]

/-- filterMap on a one-element list whose image is known. -/
theorem filterMap_singleton {α β : Type} (f : α → Option β) (a : α) (b : β)
    (h : f a = some b) : List.filterMap f [a] = [b] := by
  rw [List.filterMap_cons, h, List.filterMap_nil]

/-- The kept rows of a concatenation of blocks of lines. -/
theorem layerRows_append (a b : List Str) :
    layerRows (a ++ b) = layerRows a ++ layerRows b := by
  rw [layerRows, layerRows, layerRows, List.filterMap_append]

/-- The kept rows of a list of lines that each decode to one row. -/
theorem layerRows_map_some {α : Type} (l : List α) (f : α → Str)
    (g : α → List (List Str × List Str))
    (h : ∀ x ∈ l, layerRows [f x] = [g x]) :
    layerRows (l.map f) = l.map g := by
  induction l with
  | nil => rfl
  | cons x xs ih =>
    have hx := h x (List.mem_cons_self _ _)
    rw [List.map_cons, show f x :: xs.map f = [f x] ++ xs.map f from rfl,
      layerRows_append, hx,
      ih (fun y hy => h y (List.mem_cons_of_mem _ hy)), List.map_cons,
      List.singleton_append]

/-- A non-blank line without cell separators decodes to one row holding
one cell. -/
theorem layerRows_single (row : Str) (cell : List Str × List Str)
    (hstrip : pyStrip row ≠ [])
    (hsemi : ';' ∉ row)
    (hc : parseCell row = some cell) :
    layerRows [row] = [[cell]] := by
  rw [layerRows]
  refine filterMap_singleton _ _ _ ?_
  show (if pyStrip row = [] then none
    else
      let cells := (pySplit ';' row).filterMap parseCell
      if cells.isEmpty then none else some cells) = some [cell]
  rw [if_neg hstrip]
  show (if ((pySplit ';' row).filterMap parseCell).isEmpty then none
    else some ((pySplit ';' row).filterMap parseCell)) = some [cell]
  rw [pySplit_no_sep ';' row hsemi, filterMap_singleton parseCell row cell hc]
  rfl

/-- Decoding of the text emitted for a single-column graph: one kept
row per line, each with a single cell holding exactly the printed
names; single-layer mode, no portals. -/
theorem reparse_rowsJoin (R : Nat) (names : Nat → List Str)
    (hnames : ∀ i, i < R → names i ≠ [] ∧
      ∀ q ∈ names i, ∃ a ∈ tostrNames, q = [a]) :
    multilayer (rowsJoin R (fun i => joinComma (names i))) = false ∧
    layerRows (textLines (rowsJoin R (fun i => joinComma (names i)))) =
      (List.range R).map (fun i => [([], names i)]) ∧
    allPortals (rowsJoin R (fun i => joinComma (names i))) = [] := by
  have hchars : ∀ i, i < R → ∀ c ∈ joinComma (names i), c ∈ (',' :: tostrNames) := by
    intro i hi c hc
    rcases mem_joinComma c _ hc with rfl | ⟨q, hq, hcq⟩
    · exact List.mem_cons_self _ _
    · rcases (hnames i hi).2 q hq with ⟨a, ha, rfl⟩
      rcases List.mem_singleton.mp hcq with rfl
      exact List.mem_cons_of_mem _ ha
  have hnobad : ∀ (bad : Char), bad ∉ (',' :: tostrNames) →
      ∀ i, i < R → bad ∉ joinComma (names i) := by
    intro bad hbad i hi hmem
    exact hbad (hchars i hi bad hmem)
  have hnospace : ∀ i, i < R → ∀ c ∈ joinComma (names i), pySpace c = false := by
    intro i hi c hc
    exact (show ∀ x ∈ (',' :: tostrNames), pySpace x = false by decide)
      c (hchars i hi c hc)
  have hattne : ∀ i, i < R → joinComma (names i) ≠ [] := by
    intro i hi
    refine joinComma_ne_nil _ (hnames i hi).1 ?_
    intro q hq
    rcases (hnames i hi).2 q hq with ⟨a, _, rfl⟩
    simp
  have hcr : '\r' ∉ rowsJoin R (fun i => joinComma (names i)) := by
    intro hmem
    rw [rowsJoin] at hmem
    rcases List.mem_flatMap.mp hmem with ⟨i, hi, hmem⟩
    rcases List.mem_append.mp hmem with hmem | hmem
    · rw [rjust4] at hmem
      rcases List.mem_append.mp hmem with hmem | hmem
      · exact absurd (List.eq_of_mem_replicate hmem) (by decide)
      · exact hnobad '\r' (by decide) i (List.mem_range.mp hi) hmem
    · exact absurd (List.mem_singleton.mp hmem) (by decide)
  have hnl : ∀ x ∈ List.range R, '\n' ∉ rjust4 (joinComma (names x)) := by
    intro x hx hmem
    rw [rjust4] at hmem
    rcases List.mem_append.mp hmem with hmem | hmem
    · exact absurd (List.eq_of_mem_replicate hmem) (by decide)
    · exact hnobad '\n' (by decide) x (List.mem_range.mp hx) hmem
  have hlines : textLines (rowsJoin R (fun i => joinComma (names i))) =
      (List.range R).map (fun i => rjust4 (joinComma (names i))) ++ [[]] := by
    rw [textLines, normNewlines_eq_self _ hcr, rowsJoin]
    exact pySplit_lines' (List.range R)
      (fun i => rjust4 (joinComma (names i))) hnl
  have hml : multilayer (rowsJoin R (fun i => joinComma (names i))) = false := by
    rw [multilayer, hlines, List.any_eq_false]
    intro line hline
    rcases List.mem_append.mp hline with hmem | hmem
    · rcases List.mem_map.mp hmem with ⟨i, hi, rfl⟩
      rw [marker_false_rjust _ (fun c hc => by
        rcases List.mem_cons.mp (hchars i (List.mem_range.mp hi) c hc) with
          rfl | h
        · exact Or.inl rfl
        · exact Or.inr h)]
      simp
    · rcases List.mem_singleton.mp hmem with rfl
      decide
  have hcell : ∀ i, i < R →
      parseCell (rjust4 (joinComma (names i))) = some ([], names i) := by
    intro i hi
    have hsplit : pySplit ',' (joinComma (names i)) = names i := by
      refine pySplit_joinComma _ (hnames i hi).1 ?_
      intro n hn
      rcases (hnames i hi).2 n hn with ⟨a, ha, rfl⟩
      intro hmem
      rcases List.mem_singleton.mp hmem with h
      exact (show ∀ x ∈ tostrNames, ',' ≠ x by decide) a ha h
    have hmapstrip : (names i).map pyStrip = names i := by
      have h1 : (names i).map pyStrip = (names i).map id :=
        List.map_congr_left (fun n hn => by
          rcases (hnames i hi).2 n hn with ⟨a, ha, rfl⟩
          exact pyStrip_no_space _ (fun c hc => by
            rw [List.mem_singleton.mp hc]
            exact (show ∀ x ∈ tostrNames, pySpace x = false by decide) a ha))
      rw [h1, List.map_id]
    have hport : ∀ q ∈ names i, isPortalTok q = false := by
      intro q hq
      rcases (hnames i hi).2 q hq with ⟨a, ha, rfl⟩
      exact (show ∀ x ∈ tostrNames, isPortalTok [x] = false by decide) a ha
    have hfilterE : (names i).filter (fun p => !p.isEmpty) = names i := by
      refine List.filter_eq_self.mpr ?_
      intro q hq
      rcases (hnames i hi).2 q hq with ⟨a, _, rfl⟩
      rfl
    have hfilterP : (names i).filter isPortalTok = [] := by
      refine List.filter_eq_nil_iff.mpr ?_
      intro q hq
      simp [hport q hq]
    have hfilterM : (names i).filter (fun p => !isPortalTok p) = names i := by
      refine List.filter_eq_self.mpr ?_
      intro q hq
      rw [hport q hq]
      rfl
    rw [parseCell]
    show (if pyStrip (rjust4 (joinComma (names i))) = [] then none
      else some
        ((((pySplit ',' (pyStrip (rjust4 (joinComma (names i))))).map
            pyStrip).filter (fun p => !p.isEmpty)).filter isPortalTok,
         (((pySplit ',' (pyStrip (rjust4 (joinComma (names i))))).map
            pyStrip).filter (fun p => !p.isEmpty)).filter
              (fun p => !isPortalTok p))) = some ([], names i)
    rw [pyStrip_rjust _ (hnospace i hi), if_neg (hattne i hi), hsplit,
      hmapstrip, hfilterE, hfilterP, hfilterM]
  have hsemi : ∀ i, i < R → ';' ∉ rjust4 (joinComma (names i)) := by
    intro i hi hmem
    rw [rjust4] at hmem
    rcases List.mem_append.mp hmem with hmem | hmem
    · exact absurd (List.eq_of_mem_replicate hmem) (by decide)
    · exact hnobad ';' (by decide) i hi hmem
  have hstripne : ∀ i, i < R → pyStrip (rjust4 (joinComma (names i))) ≠ [] := by
    intro i hi
    rw [pyStrip_rjust _ (hnospace i hi)]
    exact hattne i hi
  have hrows : layerRows (textLines (rowsJoin R (fun i => joinComma (names i)))) =
      (List.range R).map (fun i => [([], names i)]) := by
    rw [hlines, layerRows_append,
      show layerRows [([] : Str)] = [] from rfl, List.append_nil]
    refine layerRows_map_some _ _ _ ?_
    intro i hil
    exact layerRows_single _ _ (hstripne i (List.mem_range.mp hil))
      (hsemi i (List.mem_range.mp hil)) (hcell i (List.mem_range.mp hil))
  refine ⟨hml, hrows, ?_⟩
  rw [allPortals, if_neg (by rw [hml]; exact Bool.false_ne_true), hrows,
    portalsOfRows]
  refine List.flatMap_eq_nil_iff.mpr ?_
  intro ic hic
  refine List.flatMap_eq_nil_iff.mpr ?_
  intro jc hjc
  have h2 : ic.2 ∈ (List.range R).map (fun i => [([], names i)]) := by
    obtain ⟨hlt, hEq⟩ :=
      List.getElem?_eq_some.mp (List.mem_enum_iff_getElem?.mp hic)
    exact hEq ▸ List.getElem_mem hlt
  rcases List.mem_map.mp h2 with ⟨i, _, hEq⟩
  rw [← hEq] at hjc
  have henum : ([(([] : List Str), names i)] : List (List Str × List Str)).enum
      = [(0, (([] : List Str), names i))] := rfl
  rw [henum] at hjc
  rcases List.mem_singleton.mp hjc with rfl
  rfl

/-- A flatMap whose blocks are singletons is a map. -/
theorem flatMap_singleton_map {α β : Type} (l : List α) (f : α → β)
    (g : α → List β) (h : ∀ x ∈ l, g x = [f x]) :
    l.flatMap g = l.map f := by
  induction l with
  | nil => rfl
  | cons x xs ih =>
    rw [List.flatMap_cons, h x (List.mem_cons_self _ _), List.map_cons,
      ih (fun y hy => h y (List.mem_cons_of_mem _ hy)), List.singleton_append]

/-- The row-major index list of a single-column grid. -/
theorem prodList_onecol (R : Nat) :
    prodList R 1 = (List.range R).map (fun i => (i, 0)) := by
  rw [prodList]
  exact flatMap_singleton_map _ _ _ (fun x _ => rfl)

/-- Membership of a printed name in the re-parsed attribute set matches
membership in the original attribute set, for the six letters tostr can
print. -/
theorem flagOf_presentNames (A : Attrs) (x : Char) (hx : x ∈ tostrNames) :
    flagOf [x] (((presentNames A).toFinset : Attrs)) = flagOf [x] A := by
  rw [flagOf, flagOf]
  by_cases h : [x] ∈ A
  · rw [if_pos (List.mem_toFinset.mpr ((mem_presentNames A x).mpr ⟨hx, h⟩)),
      if_pos h]
  · rw [if_neg (fun hmem =>
      h ((mem_presentNames A x).mp (List.mem_toFinset.mp hmem)).2), if_neg h]

/-- Claim C6: re-parsing the tostr output of a parsed single-layer text
does not in general restore the cell attributes. For the two-cell input
N;N the exporter writes both cells of the row into one line with no
cell separator, so the re-parse yields a single cell (whose N flag is
even 0, the joined token not being the letter N), while the original
graph has two cells with N flag 1. -/
theorem claim_C6_counterexample :
    (parse ['N', ';', 'N']).map
        (fun g => (g.keys.length, (g.cells (Key.k2 0 0)).N,
          (g.cells (Key.k2 0 1)).N)) = some (2, some 1, some 1) ∧
    (((parse ['N', ';', 'N']).bind tostr).bind parse).map
        (fun g => (g.keys.length, (g.cells (Key.k2 0 0)).N,
          (g.cells (Key.k2 0 1)).N)) = some (1, some 0, none) := by
  constructor <;> rfl

/-- Claim C6 (amended): for a graph parsed from a single-layer,
portal-free text whose kept grid is a nonempty single column and whose
every cell carries at least one of the six printed attribute letters,
re-parsing the text emitted by tostr yields a graph with the same keys
and identical token attributes at every cell (all ten flag fields). -/
theorem claim_C6_amended_roundtrip (floor : Str) (R : Nat) (g : Graph)
    (hml : multilayer floor = false)
    (hR : (gridOfRows (layerRows (textLines floor))).length = R)
    (hRpos : 0 < R)
    (hC : ∀ row ∈ gridOfRows (layerRows (textLines floor)), row.length = 1)
    (hnp : allPortals floor = [])
    (hflag : ∀ row ∈ gridOfRows (layerRows (textLines floor)), ∀ A ∈ row,
      ∃ a ∈ tostrNames, [a] ∈ A)
    (hg : parse floor = some g) :
    ∃ s g2, tostr g = some s ∧ parse s = some g2 ∧
      g2.keys = g.keys ∧
      ∀ k, flagsOf (g2.cells k) = flagsOf (g.cells k) := by
  obtain ⟨n, rfl⟩ : ∃ n, R = n + 1 := ⟨R - 1, by omega⟩
  set grid := gridOfRows (layerRows (textLines floor)) with hgdef
  have hgridne : grid ≠ [] := by
    intro h
    rw [h, List.length_nil] at hR
    exact Nat.succ_ne_zero n hR.symm
  have hhead1 : grid.headI.length = 1 := by
    apply hC
    rcases List.exists_cons_of_ne_nil hgridne with ⟨r, rest, hcons⟩
    rw [hcons, List.headI_cons]
    exact hcons ▸ List.mem_cons_self r rest
  have hparse : parse floor = (assembleLayer false 0 grid Graph.empty).map
      (fun g => applyMesh g []) := by
    rw [parse, hml, hnp, parsedGrids, hml]
    simp only [Bool.false_eq_true, if_false, assembleAll_single]
  obtain ⟨g0, hg0, hkeys, hmem, hout⟩ :=
    assembleLayer_char false 0 grid Graph.empty
      (fun row hrow => by rw [hhead1, hC row hrow])
      (fun i j => List.not_mem_nil _)
  rw [hR, hhead1] at hkeys hmem hout
  have hgg0 : g = g0 := by
    rw [hparse, hg0] at hg
    simp only [Option.map_some', applyMesh_nil, Option.some.injEq] at hg
    exact hg.symm
  have hkeysR : g0.keys = (List.range (n + 1)).map (fun i => Key.k2 i 0) := by
    rw [hkeys, show Graph.empty.keys = [] from rfl, List.nil_append,
      prodList_onecol, List.map_map]
    rfl
  have hcells : ∀ i, i < n + 1 → g0.cells (Key.k2 i 0) =
      assembledCell false 0 (n + 1) 1 i 0 (cellAttrs grid (i, 0)) emptyCell := by
    intro i hi
    exact hmem i 0 hi Nat.zero_lt_one
  have hflagA : ∀ i, i < n + 1 →
      ∃ a ∈ tostrNames, [a] ∈ cellAttrs grid (i, 0) := by
    intro i hi
    have hi' : i < grid.length := by rw [hR]; exact hi
    have hrowmem : grid[i] ∈ grid := List.getElem_mem hi'
    have hrl : (grid[i]).length = 1 := hC _ hrowmem
    have h0 : (0 : Nat) < (grid[i]).length := by omega
    have hA : cellAttrs grid (i, 0) = (grid[i])[0] := by
      rw [cellAttrs, List.getElem?_eq_getElem hi', Option.some_bind,
        List.getElem?_eq_getElem h0]
      rfl
    rw [hA]
    exact hflag _ hrowmem _ (List.getElem_mem h0)
  have hnames : ∀ i, i < n + 1 →
      presentNames (cellAttrs grid (i, 0)) ≠ [] ∧
      ∀ q ∈ presentNames (cellAttrs grid (i, 0)),
        ∃ a ∈ tostrNames, q = [a] := by
    intro i hi
    constructor
    · rcases hflagA i hi with ⟨a, ha, hmemA⟩
      exact List.ne_nil_of_mem ((mem_presentNames _ a).mpr ⟨ha, hmemA⟩)
    · intro q hq
      rw [presentNames] at hq
      rcases List.mem_map.mp hq with ⟨a, haf, rfl⟩
      exact ⟨a, (List.mem_filter.mp haf).1, rfl⟩
  have hatts : ∀ i, i < n + 1 → attStr2 (g0.cells (Key.k2 i 0)) =
      some (joinComma (presentNames (cellAttrs grid (i, 0)))) := by
    intro i hi
    rw [hcells i hi]
    exact attStr2_assembled false 0 (n + 1) 1 i 0 _ _
  have htostr : tostr g0 = some (rowsJoin (n + 1)
      (fun i => joinComma (presentNames (cellAttrs grid (i, 0))))) :=
    tostr_singlecol g0 n _ hkeysR hatts
  have hml2 : multilayer (rowsJoin (n + 1)
      (fun i => joinComma (presentNames (cellAttrs grid (i, 0))))) = false :=
    (reparse_rowsJoin (n + 1)
      (fun i => presentNames (cellAttrs grid (i, 0))) hnames).1
  have hrows2 : layerRows (textLines (rowsJoin (n + 1)
      (fun i => joinComma (presentNames (cellAttrs grid (i, 0)))))) =
      (List.range (n + 1)).map
        (fun i => [([], presentNames (cellAttrs grid (i, 0)))]) :=
    (reparse_rowsJoin (n + 1)
      (fun i => presentNames (cellAttrs grid (i, 0))) hnames).2.1
  have hnp2 : allPortals (rowsJoin (n + 1)
      (fun i => joinComma (presentNames (cellAttrs grid (i, 0))))) = [] :=
    (reparse_rowsJoin (n + 1)
      (fun i => presentNames (cellAttrs grid (i, 0))) hnames).2.2
  have hgrid2 : gridOfRows (layerRows (textLines (rowsJoin (n + 1)
      (fun i => joinComma (presentNames (cellAttrs grid (i, 0))))))) =
      (List.range (n + 1)).map
        (fun i => [(presentNames (cellAttrs grid (i, 0))).toFinset]) := by
    rw [hrows2, gridOfRows, List.map_map]
    rfl
  have hhead2 : ((List.range (n + 1)).map
      (fun i => [(presentNames (cellAttrs grid (i, 0))).toFinset])).headI =
      [(presentNames (cellAttrs grid (0, 0))).toFinset] := by
    rw [List.range_succ_eq_map, List.map_cons, List.headI_cons]
  obtain ⟨g2, hg2, hkeys2, hmem2, hout2⟩ :=
    assembleLayer_char false 0
      ((List.range (n + 1)).map
        (fun i => [(presentNames (cellAttrs grid (i, 0))).toFinset]))
      Graph.empty
      (fun row hrow => by
        rcases List.mem_map.mp hrow with ⟨i, _, rfl⟩
        rw [hhead2]
        exact Nat.le.refl)
      (fun i j => List.not_mem_nil _)
  have hlen2 : ((List.range (n + 1)).map
      (fun i => [(presentNames (cellAttrs grid (i, 0))).toFinset])).length =
      n + 1 := by
    rw [List.length_map, List.length_range]
  have hhead2len : ((List.range (n + 1)).map
      (fun i => [(presentNames (cellAttrs grid (i, 0))).toFinset])).headI.length =
      1 := by
    rw [hhead2]
    rfl
  rw [hlen2, hhead2len] at hkeys2 hmem2 hout2
  have hkeys2R : g2.keys = (List.range (n + 1)).map (fun i => Key.k2 i 0) := by
    rw [hkeys2, show Graph.empty.keys = [] from rfl, List.nil_append,
      prodList_onecol, List.map_map]
    rfl
  have hattr2 : ∀ i, i < n + 1 →
      cellAttrs ((List.range (n + 1)).map
        (fun i => [(presentNames (cellAttrs grid (i, 0))).toFinset])) (i, 0) =
      (presentNames (cellAttrs grid (i, 0))).toFinset := by
    intro i hi
    rw [cellAttrs, List.getElem?_map, List.getElem?_range hi]
    rfl
  have hcells2 : ∀ i, i < n + 1 → g2.cells (Key.k2 i 0) =
      assembledCell false 0 (n + 1) 1 i 0
        ((presentNames (cellAttrs grid (i, 0))).toFinset) emptyCell := by
    intro i hi
    have h := hmem2 i 0 hi Nat.zero_lt_one
    rw [hattr2 i hi] at h
    exact h
  have hflags : ∀ k, flagsOf (g2.cells k) = flagsOf (g0.cells k) := by
    intro k
    by_cases hk : ∃ i, i < n + 1 ∧ k = Key.k2 i 0
    · rcases hk with ⟨i, hi, rfl⟩
      rw [hcells2 i hi, hcells i hi]
      simp only [flagsOf, assembledCell]
      rw [flagOf_presentNames (cellAttrs grid (i, 0)) 'W' (by decide),
        flagOf_presentNames (cellAttrs grid (i, 0)) 'S' (by decide),
        flagOf_presentNames (cellAttrs grid (i, 0)) 'B' (by decide),
        flagOf_presentNames (cellAttrs grid (i, 0)) 'F' (by decide),
        flagOf_presentNames (cellAttrs grid (i, 0)) 'N' (by decide),
        flagOf_presentNames (cellAttrs grid (i, 0)) 'P' (by decide)]
    · have hcond : ∀ i j, i < n + 1 → j < 1 → k ≠ gridKey false 0 i j := by
        intro i j hi hj hEq
        have hj0 : j = 0 := by omega
        subst hj0
        exact hk ⟨i, hi, by simpa [gridKey] using hEq⟩
      rw [hout2 k hcond, hout k hcond]
  have hparse2 : parse (rowsJoin (n + 1)
      (fun i => joinComma (presentNames (cellAttrs grid (i, 0))))) =
      some g2 := by
    rw [parse, hml2, hnp2, parsedGrids, hml2]
    simp only [Bool.false_eq_true, if_false, assembleAll_single]
    rw [hgrid2, hg2]
    simp [applyMesh_nil]
  refine ⟨rowsJoin (n + 1)
      (fun i => joinComma (presentNames (cellAttrs grid (i, 0)))),
    g2, ?_, hparse2, ?_, ?_⟩
  · rw [hgg0]
    exact htostr
  · rw [hkeys2R, hgg0, hkeysR]
  · rw [hgg0]
    exact hflags

/-- Witness for the amended C6 at the single-column input with rows N,
then B,W, then S. -/
theorem claim_C6_amended_roundtrip_witness :
    ∃ g, parse ['N', '\n', 'B', ',', 'W', '\n', 'S'] = some g ∧
      ∃ s g2, tostr g = some s ∧ parse s = some g2 ∧
        g2.keys = g.keys ∧
        ∀ k, flagsOf (g2.cells k) = flagsOf (g.cells k) := by
  obtain ⟨g, hg⟩ : ∃ g, parse ['N', '\n', 'B', ',', 'W', '\n', 'S'] = some g :=
    ⟨_, rfl⟩
  exact ⟨g, hg, claim_C6_amended_roundtrip ['N', '\n', 'B', ',', 'W', '\n', 'S']
    3 g (by decide) (by decide) (by decide) (by decide) (by decide) (by decide)
    hg⟩

end FloorParse
